import Mathlib

/-!
# Verification of the 2D Brillouin-zone constructor of `postprocess_epw.py`

This file embeds, over an arbitrary linear ordered field `K` (idealizing IEEE
floats by exact field arithmetic), the geometric core of
`scripts/qe/postprocess_epw.py`:

* `_clip_polygon_halfplane` — the Sutherland–Hodgman single half-plane clip;
* `first_bz_polygon_2d_from_b1b2` — the Wigner–Seitz (first Brillouin zone)
  polygon constructor;
* `kpoints_to_cart_2d` — the k-point coordinate mapper;
* `plot_lambda_fs` — the control flow of the plotting caller around the BZ overlay
  (plot primitives are modelled as records of the arguments they receive).

`np.linalg.norm` is `sqrt (norm2 ·)` for an explicit square-root function
passed as a parameter; theorems about the real program instantiate it with
`Real.sqrt` at `K := ℝ`.  Python exceptions are modelled by `Except String`;
machine floats carry no `NaN`/`inf` in this exact model.
-/

namespace BZ

variable {K : Type*} [LinearOrderedField K]

/-- 2D point / vector, as the pair of its coordinates. -/
abbrev Pt (K : Type*) := K × K

/-- Dot product `n @ p` of 2D vectors. -/
def dot2 (u v : Pt K) : K := u.1 * v.1 + u.2 * v.2

/-- 2D cross product (z-component), used for orientation / area reasoning. -/
def cross2 (u v : Pt K) : K := u.1 * v.2 - u.2 * v.1

/-- Scalar times 2D vector. -/
def smul2 (t : K) (v : Pt K) : Pt K := (t * v.1, t * v.2)

/-- Squared Euclidean norm; `np.linalg.norm v = sqrt (norm2 v)`. -/
def norm2 (v : Pt K) : K := v.1 * v.1 + v.2 * v.2

/-- The half-plane membership test `inside` of `_clip_polygon_halfplane`:
`(n @ p) <= c + eps`. -/
def insideB (n : Pt K) (c eps : K) (p : Pt K) : Bool := dot2 n p ≤ c + eps

/-- The `intersect` helper of `_clip_polygon_halfplane`: the point where edge
`p1 → p2` meets the boundary line, with the interpolation parameter clamped to
`[0,1]`, and a near-parallel guard returning `p1` when `|n @ d| < eps`. -/
def intersectPt (n : Pt K) (c eps : K) (p1 p2 : Pt K) : Pt K :=
  let d := p2 - p1
  let denom := dot2 n d
  if |denom| < eps then p1
  else
    let t := (c - dot2 n p1) / denom
    let t' := max 0 (min 1 t)
    p1 + smul2 t' d

/-- One iteration of the clip loop body: the vertices emitted for the edge
`prev → cur` (in emission order). -/
def clipStep (n : Pt K) (c eps : K) (prev cur : Pt K) : List (Pt K) :=
  if insideB n c eps cur then
    if insideB n c eps prev then [cur]
    else [intersectPt n c eps prev cur, cur]
  else
    if insideB n c eps prev then [intersectPt n c eps prev cur] else []

/-- The clip loop: walk the vertex list with running previous vertex. -/
def clipWalk (n : Pt K) (c eps : K) : Pt K → List (Pt K) → List (Pt K)
  | _, [] => []
  | prev, cur :: rest => clipStep n c eps prev cur ++ clipWalk n c eps cur rest

/-- Function `_clip_polygon_halfplane(poly, n, c, eps)`: clip a polygon by the
half-plane `n·x ≤ c` (with tolerance `eps`); an empty polygon is returned
unchanged, otherwise the walk starts from `prev = poly[-1]`. -/
def _clip_polygon_halfplane (poly : List (Pt K)) (n : Pt K) (c : K) (eps : K) :
    List (Pt K) :=
  match poly.getLast? with
  | none => []
  | some lst => clipWalk n c eps lst poly

/-- The default tolerance `eps = 1e-12` of `_clip_polygon_halfplane`. -/
def epsDefault (K : Type*) [LinearOrderedField K] : K := 1 / 10 ^ 12

/-- The list of integers in `range(-N, N+1)`. -/
def intRange (N : ℕ) : List ℤ :=
  (List.range (2 * N + 1)).map fun (i : ℕ) => (i : ℤ) - (N : ℤ)

/-- Integer multiple of a 2D vector (`m * b1` with `m` from the loop). -/
def zsmul2 (m : ℤ) (v : Pt K) : Pt K := ((m : K) * v.1, (m : K) * v.2)

/-- The candidate reciprocal-lattice vectors `G = m*b1 + n*b2`,
`m, n ∈ [-N, N]`, `(m,n) ≠ (0,0)`, kept when `np.linalg.norm G > 0`. -/
def bz_candidates (sqrt : K → K) (b1 b2 : Pt K) (N : ℕ) : List (Pt K) :=
  (intRange N).flatMap fun m =>
    (intRange N).filterMap fun n =>
      if m = 0 ∧ n = 0 then none
      else
        let G := zsmul2 m b1 + zsmul2 n b2
        if 0 < sqrt (norm2 G) then some G else none

/-- The `max` builtin of Python over a list (the empty case is unreachable
in the source). -/
def pyMax : List K → K
  | [] => 0
  | x :: xs => xs.foldl max x

/-- The bounding radius `R = 2.5 * max(np.linalg.norm(g) for g in Gs)`. -/
def bz_radius (sqrt : K → K) (Gs : List (Pt K)) : K :=
  5 / 2 * pyMax (Gs.map fun g => sqrt (norm2 g))

/-- The initial bounding square `[(-R,-R), (R,-R), (R,R), (-R,R)]`. -/
def bz_square (R : K) : List (Pt K) := [(-R, -R), (R, -R), (R, R), (-R, R)]

/-- The clipping loop of `first_bz_polygon_2d_from_b1b2`: clip by the
half-plane `x·G ≤ |G|²/2` for each candidate `G`, breaking early when the
polygon becomes empty. -/
def bz_loop : List (Pt K) → List (Pt K) → List (Pt K)
  | [], poly => poly
  | G :: rest, poly =>
      let p := _clip_polygon_halfplane poly G (norm2 G / 2) (epsDefault K)
      if p = [] then p else bz_loop rest p

/-- The tail of `first_bz_polygon_2d_from_b1b2` once the candidate list `Gs`
and bounding radius `R` are known: clip the bounding square by every
half-plane and apply the final emptiness/degeneracy check. -/
def bz_from_Gs (Gs : List (Pt K)) (R : K) : Except String (List (Pt K)) :=
  let poly := bz_loop Gs (bz_square R)
  if poly = [] ∨ poly.length < 3 then
    .error "BZ polygon clipping produced empty/degenerate polygon"
  else .ok poly

/-- Function `first_bz_polygon_2d_from_b1b2(b1, b2, N)`; the two `ValueError`
raises of the source are the two `.error` messages. -/
def first_bz_polygon_2d_from_b1b2 (sqrt : K → K) (b1 b2 : Pt K) (N : ℕ) :
    Except String (List (Pt K)) :=
  let Gs := bz_candidates sqrt b1 b2 N
  if Gs = [] then .error "No neighbor G vectors generated"
  else bz_from_Gs Gs (bz_radius sqrt Gs)

/-!
## The k-point mapper `kpoints_to_cart_2d`

`numpy` 2D arrays are modelled as a list of rows together with the recorded
column count of the array shape (`Arr2.WF` states the rows match it).
`numpy` exceptions (explicit `raise`, and the shape mismatch raised by `@`)
are `Except.error`.
-/

/-- Decidable equality of `Except` values, for concrete evaluation. -/
instance {ε α : Type*} [DecidableEq ε] [DecidableEq α] :
    DecidableEq (Except ε α)
  | .error e, .error f => decidable_of_iff (e = f) (by simp)
  | .error _, .ok _ => isFalse (by simp)
  | .ok _, .error _ => isFalse (by simp)
  | .ok a, .ok b => decidable_of_iff (a = b) (by simp)

/-- A 2D `numpy` array: rows plus the `shape[1]` entry. -/
structure Arr2 (K : Type*) where
  rows : List (List K)
  ncols : ℕ
deriving DecidableEq

/-- Well-formedness: every row has exactly `ncols` entries. -/
def Arr2.WF (a : Arr2 K) : Prop := ∀ r ∈ a.rows, r.length = a.ncols

/-- Column slice `a[:, :n]`. -/
def Arr2.takeCols (a : Arr2 K) (n : ℕ) : Arr2 K :=
  ⟨a.rows.map (·.take n), min a.ncols n⟩

/-- Column `a[:, i]` (rows shorter than `i+1` cannot occur for well-formed
arrays; `getD` supplies a junk `0` there). -/
def Arr2.col (a : Arr2 K) (i : ℕ) : List K := a.rows.map (·.getD i 0)

/-- Dot product of two equally long lists (junk-free under `WF`). -/
def dotList (xs ys : List K) : K := (List.zipWith (· * ·) xs ys).sum

/-- Matrix product `A @ B`, failing like `numpy` when the inner dimensions
disagree. -/
def Arr2.matmul (A B : Arr2 K) : Except String (Arr2 K) :=
  if A.ncols ≠ B.rows.length then .error "matmul: dimension mismatch"
  else
    .ok ⟨A.rows.map fun r =>
          (List.range B.ncols).map fun j => dotList r (B.rows.map (·.getD j 0)),
        B.ncols⟩

/-- All entries of `np.abs(a)`, row-major (for `np.nanmax`; exact field
elements are never `NaN`). -/
def Arr2.flatAbs (a : Arr2 K) : List K := (a.rows.map (·.map abs)).flatten

/-- Function `kpoints_to_cart_2d(kxyz, b, mode)`. -/
def kpoints_to_cart_2d (kxyz b : Arr2 K) (mode : String) :
    Except String (Arr2 K) :=
  if kxyz.ncols < 3 then .error "kxyz must be (N,3)"
  else
    let modeUse : Except String String :=
      if mode = "auto" then
        match (kxyz.takeCols 3).flatAbs with
        | [] => .error "zero-size array to reduction operation"
        | x :: xs => .ok (if xs.foldl max x ≤ 12 / 10 then "crystal" else "cart")
      else .ok mode
    match modeUse with
    | .error e => .error e
    | .ok mode_use =>
      if mode_use = "cart" then .ok (kxyz.takeCols 2)
      else if mode_use = "crystal" then
        (Arr2.matmul (kxyz.takeCols 3) b).map fun M => M.takeCols 2
      else .error ("Unknown k-point mode: " ++ mode)

/-!
## The plotting caller `plot_lambda_fs`

Only the control flow around the Brillouin-zone overlay is relevant; the
`plot_scatter_2d` primitive is modelled as a record of the arguments it
receives.  The metadata XML file is modelled by an
`Option (Except String (Mat3 K))` argument: `none` when the file does not
exist, `some (.error e)` when `read_reciprocal_lattice_from_qe_xml` raises,
and `some (.ok b)` when it returns the 3×3 matrix `b` (its parser always
produces exactly three rows of three numbers).
-/

/-- A parsed 3×3 reciprocal-lattice matrix, rows `b1, b2, b3`. -/
structure Mat3 (K : Type*) where
  r1 : K × K × K
  r2 : K × K × K
  r3 : K × K × K
deriving DecidableEq

/-- The matrix as the `(3,3)` array handed to `kpoints_to_cart_2d`. -/
def Mat3.toArr2 (b : Mat3 K) : Arr2 K :=
  ⟨[[b.r1.1, b.r1.2.1, b.r1.2.2],
    [b.r2.1, b.r2.2.1, b.r2.2.2],
    [b.r3.1, b.r3.2.1, b.r3.2.2]], 3⟩

/-- The module constant `KPOINT_MODE`. -/
def KPOINT_MODE : String := "auto"

/-- The module constant `BZ_NEIGHBOR_RANGE`. -/
def BZ_NEIGHBOR_RANGE : ℕ := 2

/-- One `plot_scatter_2d` call: the scatter coordinates, colour values and
the (optional) Brillouin-zone overlay polygon it receives. -/
structure ScatterPlot (K : Type*) where
  kx : List K
  ky : List K
  v : List K
  bz_poly : Option (List (Pt K))
deriving DecidableEq

/-- The plots produced by one `plot_lambda_fs` run: the λ map, and the
`Enk-Ef` map when the table has at least 5 columns. -/
structure LambdaFSPlots (K : Type*) where
  lambdaMap : ScatterPlot K
  enkMap : Option (ScatterPlot K)
deriving DecidableEq

/-- Test `np.isfinite`: exact field elements model only finite floats, so the
finiteness masks of the source keep every row. -/
def isFiniteK (_x : K) : Bool := true

/-- The mask `np.isfinite kx & np.isfinite ky & np.isfinite v` applied to a
triple of columns. -/
def finiteMask3 (xs ys vs : List K) : List K × List K × List K :=
  let t := (List.zip xs (List.zip ys vs)).filter fun p =>
    isFiniteK p.1 && isFiniteK p.2.1 && isFiniteK p.2.2
  (t.map (·.1), t.map (·.2.1), t.map (·.2.2))

/-- The overlay `try`-block of `plot_lambda_fs`: `none` exactly when the XML
is absent or any of the three steps raises. -/
def bz_overlay (sqrt : K → K) (kxyz : Arr2 K)
    (xml : Option (Except String (Mat3 K))) :
    Option (List (Pt K) × Arr2 K) :=
  match xml with
  | none => none
  | some (.error _) => none
  | some (.ok b) =>
    let b1_2d : Pt K := (b.r1.1, b.r1.2.1)
    let b2_2d : Pt K := (b.r2.1, b.r2.2.1)
    match first_bz_polygon_2d_from_b1b2 sqrt b1_2d b2_2d BZ_NEIGHBOR_RANGE with
    | .error _ => none
    | .ok poly =>
      match kpoints_to_cart_2d kxyz b.toArr2 KPOINT_MODE with
      | .error _ => none
      | .ok kxy => some (poly, kxy)

/-- Function `plot_lambda_fs(prefix, path, outdir, tag)` after `read_table_with_header`
returned `data`; the value collects the scatter calls made. -/
def plot_lambda_fs (sqrt : K → K) (data : Arr2 K)
    (xml : Option (Except String (Mat3 K))) :
    Except String (LambdaFSPlots K) :=
  if data.ncols < 3 then .error "needs >=3 columns"
  else
    let kxyz := data.takeCols 3
    let lam := data.col (data.ncols - 1)
    let overlay := bz_overlay sqrt kxyz xml
    let bz_poly := overlay.map (·.1)
    let kx := match overlay with
      | none => data.col 0
      | some o => o.2.col 0
    let ky := match overlay with
      | none => data.col 1
      | some o => o.2.col 1
    let mL := finiteMask3 kx ky lam
    let lambdaMap : ScatterPlot K := ⟨mL.1, mL.2.1, mL.2.2, bz_poly⟩
    let enkMap : Option (ScatterPlot K) :=
      if 5 ≤ data.ncols then
        let enk := data.col (data.ncols - 2)
        let mE := finiteMask3 kx ky enk
        some ⟨mE.1, mE.2.1, mE.2.2, bz_poly⟩
      else none
    .ok ⟨lambdaMap, enkMap⟩

/-!
## Concrete example data for witnesses and counterexamples
-/

/-- Example k-point table whose maximum absolute component is 0.9. -/
def kxMax09 : Arr2 ℚ := ⟨[[9 / 10, 0, 0], [1 / 2, 1 / 10, 0]], 3⟩

/-- Example k-point table whose maximum absolute component is 5. -/
def kxMax50 : Arr2 ℚ := ⟨[[5, 0, 0], [1 / 2, 1 / 10, 0]], 3⟩

/-- A non-identity 3×3 basis. -/
def basisQ : Arr2 ℚ := ⟨[[2, 1, 0], [0, 3, 0], [0, 0, 1]], 3⟩

/-- A 2×3 basis (two rows of three entries). -/
def basis23 : Arr2 ℚ := ⟨[[1, 0, 0], [0, 1, 0]], 3⟩

/-- A step of the BZ overlay raised: either the metadata XML parse failed,
or building the BZ polygon failed, or mapping the k-points failed (an absent
XML file is not a raise). -/
def overlayStepFailed (sqrt : K → K) (kxyz : Arr2 K)
    (xml : Option (Except String (Mat3 K))) : Prop :=
  match xml with
  | none => False
  | some (.error _) => True
  | some (.ok b) =>
      (∃ e, first_bz_polygon_2d_from_b1b2 sqrt (b.r1.1, b.r1.2.1)
          (b.r2.1, b.r2.2.1) BZ_NEIGHBOR_RANGE = .error e) ∨
      (∃ e, kpoints_to_cart_2d kxyz b.toArr2 KPOINT_MODE = .error e)

/-!
## Auxiliary definitions for the correctness development
-/

/-- Coordinatewise image of a point under a scalar map. -/
def mapPt {L : Type*} (φ : K → L) (p : Pt K) : Pt L := (φ p.1, φ p.2)

/-- The candidate list with the test `0 < norm2 G` in place of
`0 < sqrt (norm2 G)` (the two agree over `ℝ` with `Real.sqrt`). -/
def bz_candidates_sq (b1 b2 : Pt K) (N : ℕ) : List (Pt K) :=
  (intRange N).flatMap fun m =>
    (intRange N).filterMap fun n =>
      if m = 0 ∧ n = 0 then none
      else
        let G := zsmul2 m b1 + zsmul2 n b2
        if 0 < norm2 G then some G else none

/-!
## The computable quadratic field of numbers `a + b * sqrt 2`

The square-lattice Brillouin-zone run has bounding radius `5 * sqrt 2`; all
its intermediate values lie in the subfield of `ℝ` generated by `sqrt 2`,
which this structure realizes with exact rational arithmetic so that the
run can be evaluated by `decide`.
-/

/-- A number `a + b * sqrt 2` with rational `a`, `b`. -/
structure Q2 where
  a : ℚ
  b : ℚ
deriving DecidableEq

/-- Componentwise addition. -/
def Q2.add (x y : Q2) : Q2 := ⟨x.a + y.a, x.b + y.b⟩

/-- Componentwise negation. -/
def Q2.neg (x : Q2) : Q2 := ⟨-x.a, -x.b⟩

/-- Componentwise subtraction. -/
def Q2.sub (x y : Q2) : Q2 := ⟨x.a - y.a, x.b - y.b⟩

/-- Multiplication: `(a + b√2)(c + d√2) = (ac + 2bd) + (ad + bc)√2`. -/
def Q2.mul (x y : Q2) : Q2 :=
  ⟨x.a * y.a + 2 * (x.b * y.b), x.a * y.b + x.b * y.a⟩

/-- Inverse via the conjugate; the discriminant `a² - 2b²` vanishes only at
zero, where division by zero yields `⟨0, 0⟩ = 0` as required. -/
def Q2.inv (x : Q2) : Q2 :=
  ⟨x.a / (x.a * x.a - 2 * (x.b * x.b)), -x.b / (x.a * x.a - 2 * (x.b * x.b))⟩

/-- Decidable sign test: `nonnegB x = true` iff `0 ≤ a + b√2`. -/
def Q2.nonnegB (x : Q2) : Bool :=
  if 0 ≤ x.a then
    if 0 ≤ x.b then true else decide (2 * (x.b * x.b) ≤ x.a * x.a)
  else
    if 0 ≤ x.b then decide (x.a * x.a ≤ 2 * (x.b * x.b)) else false

/-- The defining embedding into `ℝ`. -/
noncomputable def Q2.toReal (x : Q2) : ℝ := x.a + x.b * Real.sqrt 2

/-!
## Geometric vocabulary for the correctness claims
-/

/-- Helper for the shoelace sum: consecutive cross terms plus the wrap term
back to `first`. -/
def sArea2Go (first : Pt K) : Pt K → List (Pt K) → K
  | prev, [] => cross2 prev first
  | prev, q :: l => cross2 prev q + sArea2Go first q l

/-- Twice the shoelace signed area of a closed polygon; positive exactly
when the listed traversal is counter-clockwise. -/
def sArea2 : List (Pt K) → K
  | [] => 0
  | p :: l => sArea2Go p p l

/-- Twice the signed area of the triangle `p q r` (positive for a
counter-clockwise triple). -/
def triArea2 (p q r : Pt K) : K := cross2 (q - p) (r - p)

/-- All ordered pairs of a list, in order. -/
def allPairs {α : Type*} : List α → List (α × α)
  | [] => []
  | x :: xs => (xs.map fun y => (x, y)) ++ allPairs xs

/-- All ordered triples of a list, in order. -/
def allTriples {α : Type*} : List α → List (α × α × α)
  | [] => []
  | x :: xs => ((allPairs xs).map fun qr => (x, qr.1, qr.2)) ++ allTriples xs

/-- A polygon is listed in (weakly) convex counter-clockwise position when
every ordered triple of its vertices is a non-clockwise turn. -/
def ConvexCCW (l : List (Pt K)) : Prop :=
  ∀ p q r : Pt K, List.Sublist [p, q, r] l → 0 ≤ triArea2 p q r

/-- Decidable check of `ConvexCCW`. -/
def convexCCWb (l : List (Pt K)) : Bool :=
  (allTriples l).all fun t => decide (0 ≤ triArea2 t.1 t.2.1 t.2.2)

/-- The cyclically consecutive vertex pairs walked by the clip loop. -/
def cyclicPairs (poly : List (Pt K)) : List (Pt K × Pt K) :=
  match poly.getLast? with
  | none => []
  | some lst => (lst :: poly).zip poly

/-- No boundary-crossing edge of the polygon is `eps`-grazing: whenever the
two endpoints of a cyclic edge lie on different sides of the half-plane
test, the edge is not almost parallel to the boundary. -/
def NoGrazingEdges (n : Pt K) (c eps : K) (poly : List (Pt K)) : Prop :=
  ∀ pq ∈ cyclicPairs poly,
    insideB n c eps pq.1 ≠ insideB n c eps pq.2 →
    eps ≤ |dot2 n (pq.2 - pq.1)|

/-- Both coordinates bounded by `R` in absolute value. -/
def inSquare (R : K) (p : Pt K) : Prop := |p.1| ≤ R ∧ |p.2| ≤ R

/-- The polygon returned by the square-lattice Brillouin-zone run: the unit
half-integer square, traversed counter-clockwise, with two duplicated
vertices produced by clips whose boundary passes exactly through a vertex. -/
noncomputable def squareBZpoly : List (Pt ℝ) :=
  [((1 / 2 : ℝ), -(1 / 2)), ((1 / 2 : ℝ), 1 / 2), (-(1 / 2 : ℝ), 1 / 2),
    (-(1 / 2 : ℝ), 1 / 2), (-(1 / 2 : ℝ), -(1 / 2)),
    (-(1 / 2 : ℝ), -(1 / 2)), ((1 / 2 : ℝ), -(1 / 2))]

/-- A thin counter-clockwise triangle at the default-tolerance scale: both
edges that cross the line `y = 0` have a vertical extent below `eps`, so the
near-parallel guard of `intersect` fires on them. -/
def grazeTriangle : List (Pt ℚ) :=
  [((0 : ℚ), 12 / 10 ^ 13), (-(1 / 10 ^ 12 : ℚ), 5 / 10 ^ 13),
    ((1 / 10 ^ 12 : ℚ), 5 / 10 ^ 13)]

/-- A concrete counter-clockwise unit square over the rationals. -/
def unitSqQ : List (Pt ℚ) :=
  [(-(1 : ℚ), -1), ((1 : ℚ), -1), ((1 : ℚ), 1), (-(1 : ℚ), 1)]

/-!
## Mode evaluation lemmas for `kpoints_to_cart_2d`
-/

/-- Cart mode ignores the basis and the guard is the only failure. -/
theorem kp_cart_eval (kxyz b : Arr2 K) (h : ¬ kxyz.ncols < 3) :
    kpoints_to_cart_2d kxyz b "cart" = .ok (kxyz.takeCols 2) := by
  simp [kpoints_to_cart_2d, h]

/-- Crystal mode is the matrix product followed by the column slice. -/
theorem kp_crystal_eval (kxyz b : Arr2 K) (h : ¬ kxyz.ncols < 3) :
    kpoints_to_cart_2d kxyz b "crystal" =
      (Arr2.matmul (kxyz.takeCols 3) b).map fun M => M.takeCols 2 := by
  simp [kpoints_to_cart_2d, h]

/-- Auto mode delegates to crystal or cart by the max-abs threshold. -/
theorem kp_auto_eval (kxyz b : Arr2 K) (x : K) (xs : List K)
    (h : (kxyz.takeCols 3).flatAbs = x :: xs) :
    kpoints_to_cart_2d kxyz b "auto" =
      if pyMax ((kxyz.takeCols 3).flatAbs) ≤ 12 / 10 then
        kpoints_to_cart_2d kxyz b "crystal"
      else kpoints_to_cart_2d kxyz b "cart" := by
  by_cases h3 : kxyz.ncols < 3
  · simp [kpoints_to_cart_2d, h3]
  · simp only [kpoints_to_cart_2d, h3, if_false, h, pyMax]
    by_cases hm : xs.foldl max x ≤ 12 / 10 <;> simp [hm]

/-- C7: in auto mode, `kpoints_to_cart_2d` computes the maximum absolute
component over all k-points and behaves exactly as crystal mode when it is
at most 1.2 and exactly as cartesian mode otherwise; in particular an input
with maximum absolute value 0.9 takes the crystal branch and one with
maximum absolute value 5.0 takes the cartesian branch. -/
theorem auto_mode_resolves_by_max_abs :
    (∀ (kxyz b : Arr2 K) (x : K) (xs : List K),
        (kxyz.takeCols 3).flatAbs = x :: xs →
        kpoints_to_cart_2d kxyz b "auto" =
          if pyMax ((kxyz.takeCols 3).flatAbs) ≤ 12 / 10 then
            kpoints_to_cart_2d kxyz b "crystal"
          else kpoints_to_cart_2d kxyz b "cart") ∧
    kpoints_to_cart_2d kxMax09 basisQ "auto" =
      kpoints_to_cart_2d kxMax09 basisQ "crystal" ∧
    kpoints_to_cart_2d kxMax50 basisQ "auto" =
      kpoints_to_cart_2d kxMax50 basisQ "cart" := by
  refine ⟨fun kxyz b x xs h => kp_auto_eval kxyz b x xs h, ?_, ?_⟩ <;>
    with_unfolding_all decide

/-- C7 witness: the general auto-mode rule at a concrete input. -/
theorem auto_mode_resolves_by_max_abs_witness :
    ((kxMax09.takeCols 3).flatAbs = 9 / 10 :: [0, 0, 1 / 2, 1 / 10, 0]) ∧
    kpoints_to_cart_2d kxMax09 basisQ "auto" =
      (if pyMax ((kxMax09.takeCols 3).flatAbs) ≤ 12 / 10 then
        kpoints_to_cart_2d kxMax09 basisQ "crystal"
      else kpoints_to_cart_2d kxMax09 basisQ "cart") :=
  ⟨by with_unfolding_all decide,
    (auto_mode_resolves_by_max_abs (K := ℚ)).1 kxMax09 basisQ (9 / 10)
      [0, 0, 1 / 2, 1 / 10, 0] (by with_unfolding_all decide)⟩

/-- C8 counterexample: the spec mode string "cartesian" is not accepted by
the code; it raises the Unknown-mode `ValueError` even on a well-shaped
input. -/
theorem mode_cartesian_is_rejected :
    kpoints_to_cart_2d kxMax09 basisQ "cartesian" =
      .error "Unknown k-point mode: cartesian" := by
  with_unfolding_all decide

/-- C8 (amended): the mode string for the cartesian interpretation is
"cart"; with it the mapper succeeds on every input whose k-point rows have
at least 3 components, returning each k-point truncated to its first two
components, in the same order and count; the basis plays no role. -/
theorem mode_cart_succeeds (kxyz b : Arr2 K) (h : ¬ kxyz.ncols < 3) :
    kpoints_to_cart_2d kxyz b "cart" = .ok (kxyz.takeCols 2) :=
  kp_cart_eval kxyz b h

/-- C8 witness: the cart mode at a concrete input. -/
theorem mode_cart_succeeds_witness :
    (¬ kxMax09.ncols < 3) ∧
    kpoints_to_cart_2d kxMax09 basisQ "cart" = .ok (kxMax09.takeCols 2) :=
  ⟨by decide, mode_cart_succeeds kxMax09 basisQ (by decide)⟩

/-- C6 counterexample: a 2×3 basis does not make every mode fail — the cart
branch never inspects the basis and succeeds. -/
theorem basis_2x3_cart_succeeds :
    kpoints_to_cart_2d kxMax09 basis23 "cart" = .ok (kxMax09.takeCols 2) := by
  with_unfolding_all decide

/-- C6 (amended): `kpoints_to_cart_2d` raises the shape `ValueError` exactly
when the k-point rows have fewer than 3 components, for every mode; a 2×3
basis causes a failure (the dimension mismatch of `@`) on the crystal
branch only, while the cart branch ignores the basis and succeeds. -/
theorem shape_errors_of_kpoints_to_cart_2d :
    (∀ (kxyz b : Arr2 K) (mode : String), kxyz.ncols < 3 →
        kpoints_to_cart_2d kxyz b mode = .error "kxyz must be (N,3)") ∧
    (∀ (kxyz b : Arr2 K), ¬ kxyz.ncols < 3 → b.rows.length = 2 →
        kpoints_to_cart_2d kxyz b "crystal" =
          .error "matmul: dimension mismatch") ∧
    (∀ (kxyz b : Arr2 K), ¬ kxyz.ncols < 3 →
        kpoints_to_cart_2d kxyz b "cart" = .ok (kxyz.takeCols 2)) := by
  refine ⟨fun kxyz b mode h => ?_, fun kxyz b h3 h2 => ?_, kp_cart_eval⟩
  · simp [kpoints_to_cart_2d, h]
  · rw [kp_crystal_eval kxyz b h3]
    have hc : (kxyz.takeCols 3).ncols = 3 := by
      simp [Arr2.takeCols]
      omega
    simp [Arr2.matmul, hc, h2, Except.map]

/-- C6 witness: both failure shapes at concrete inputs. -/
theorem shape_errors_of_kpoints_to_cart_2d_witness :
    ((⟨[[1, 2]], 2⟩ : Arr2 ℚ).ncols < 3 ∧
      kpoints_to_cart_2d (⟨[[1, 2]], 2⟩ : Arr2 ℚ) basisQ "crystal" =
        .error "kxyz must be (N,3)") ∧
    (¬ kxMax09.ncols < 3 ∧ basis23.rows.length = 2 ∧
      kpoints_to_cart_2d kxMax09 basis23 "crystal" =
        .error "matmul: dimension mismatch") :=
  ⟨⟨by decide,
      (shape_errors_of_kpoints_to_cart_2d (K := ℚ)).1 _ basisQ "crystal"
        (by decide)⟩,
    ⟨by decide, by decide,
      (shape_errors_of_kpoints_to_cart_2d (K := ℚ)).2.1 kxMax09 basis23
        (by decide) (by decide)⟩⟩

/-- C10: whenever `kpoints_to_cart_2d` resolves to the cartesian branch
(mode "cart", or auto mode with maximum absolute component above 1.2), its
output is independent of the basis matrix: two runs with arbitrary bases
return identical results. -/
theorem cart_branch_ignores_basis (kxyz b b' : Arr2 K) :
    kpoints_to_cart_2d kxyz b "cart" = kpoints_to_cart_2d kxyz b' "cart" ∧
    (∀ (x : K) (xs : List K), (kxyz.takeCols 3).flatAbs = x :: xs →
      12 / 10 < pyMax ((kxyz.takeCols 3).flatAbs) →
      kpoints_to_cart_2d kxyz b "auto" = kpoints_to_cart_2d kxyz b' "auto") := by
  constructor
  · by_cases h3 : kxyz.ncols < 3
    · simp [kpoints_to_cart_2d, h3]
    · rw [kp_cart_eval kxyz b h3, kp_cart_eval kxyz b' h3]
  · intro x xs h hgt
    rw [kp_auto_eval kxyz b x xs h, kp_auto_eval kxyz b' x xs h,
      if_neg (not_le.mpr hgt), if_neg (not_le.mpr hgt)]
    by_cases h3 : kxyz.ncols < 3
    · simp [kpoints_to_cart_2d, h3]
    · rw [kp_cart_eval kxyz b h3, kp_cart_eval kxyz b' h3]

/-- C10 witness: basis independence of the cart branch at concrete inputs,
with two different bases. -/
theorem cart_branch_ignores_basis_witness :
    ((kxMax50.takeCols 3).flatAbs = 5 :: [0, 0, 1 / 2, 1 / 10, 0] ∧
      12 / 10 < pyMax ((kxMax50.takeCols 3).flatAbs)) ∧
    kpoints_to_cart_2d kxMax50 basisQ "auto" =
      kpoints_to_cart_2d kxMax50 basis23 "auto" :=
  ⟨⟨by with_unfolding_all decide, by with_unfolding_all decide⟩,
    (cart_branch_ignores_basis kxMax50 basisQ basis23).2 5
      [0, 0, 1 / 2, 1 / 10, 0] (by with_unfolding_all decide)
      (by with_unfolding_all decide)⟩

/-- A failed overlay step makes the whole overlay absent. -/
theorem bz_overlay_eq_none (sqrt : K → K) (kxyz : Arr2 K)
    (xml : Option (Except String (Mat3 K)))
    (hfail : overlayStepFailed sqrt kxyz xml) :
    bz_overlay sqrt kxyz xml = none := by
  match xml with
  | none => rfl
  | some (.error e) => rfl
  | some (.ok b) =>
    rcases hfail with ⟨e, he⟩ | ⟨e, he⟩
    · simp [bz_overlay, he]
    · simp only [bz_overlay]
      cases hfz : first_bz_polygon_2d_from_b1b2 sqrt (b.r1.1, b.r1.2.1)
          (b.r2.1, b.r2.2.1) BZ_NEIGHBOR_RANGE with
      | error _ => rfl
      | ok _ => rw [he]

/-- Evaluation of `plot_lambda_fs` when no metadata XML exists. -/
theorem plot_lambda_fs_none_eval (sqrt : K → K) (data : Arr2 K)
    (h3 : ¬ data.ncols < 3) :
    plot_lambda_fs sqrt data none =
      .ok ⟨(let m := finiteMask3 (data.col 0) (data.col 1)
              (data.col (data.ncols - 1));
            ⟨m.1, m.2.1, m.2.2, none⟩),
          if 5 ≤ data.ncols then
            some (let mE := finiteMask3 (data.col 0) (data.col 1)
                    (data.col (data.ncols - 2));
                  ⟨mE.1, mE.2.1, mE.2.2, none⟩)
          else none⟩ := by
  simp only [plot_lambda_fs, if_neg h3]
  rfl

/-- C2: whenever any step of the Brillouin-zone overlay raises,
`plot_lambda_fs` behaves exactly as if no metadata file existed: the raise
is swallowed, the overlay is absent, and the scatter plots are still
produced from the raw k-point columns 0 and 1. -/
theorem plot_lambda_fs_fail_soft (sqrt : K → K) (data : Arr2 K)
    (xml : Option (Except String (Mat3 K)))
    (hfail : overlayStepFailed sqrt (data.takeCols 3) xml) :
    plot_lambda_fs sqrt data xml = plot_lambda_fs sqrt data none ∧
    (¬ data.ncols < 3 →
      ∃ r, plot_lambda_fs sqrt data xml = .ok r ∧
        r.lambdaMap.bz_poly = none ∧
        r.lambdaMap =
          (let m := finiteMask3 (data.col 0) (data.col 1)
            (data.col (data.ncols - 1));
          ⟨m.1, m.2.1, m.2.2, none⟩) ∧
        (∀ e ∈ r.enkMap, e.bz_poly = none)) := by
  have hov := bz_overlay_eq_none sqrt (data.takeCols 3) xml hfail
  have hov0 : bz_overlay sqrt (data.takeCols 3)
      (none : Option (Except String (Mat3 K))) = none := rfl
  have hsame : plot_lambda_fs sqrt data xml = plot_lambda_fs sqrt data none := by
    simp only [plot_lambda_fs, hov, hov0]
  refine ⟨hsame, fun h3 => ?_⟩
  rw [hsame, plot_lambda_fs_none_eval sqrt data h3]
  refine ⟨_, rfl, rfl, rfl, fun e he => ?_⟩
  by_cases h5 : 5 ≤ data.ncols
  · rw [Option.mem_def, if_pos h5, Option.some.injEq] at he
    rw [← he]
  · rw [Option.mem_def, if_neg h5] at he
    exact absurd he (by simp)

/-- C2 witness: concrete failing overlay (XML parse error). -/
theorem plot_lambda_fs_fail_soft_witness :
    overlayStepFailed (fun x : ℚ => x) (kxMax09.takeCols 3)
        (some (.error "parse failure")) ∧
    plot_lambda_fs (fun x : ℚ => x) kxMax09 (some (.error "parse failure")) =
      plot_lambda_fs (fun x : ℚ => x) kxMax09 none :=
  ⟨trivial,
    (plot_lambda_fs_fail_soft (fun x : ℚ => x) kxMax09
      (some (.error "parse failure")) trivial).1⟩

/-!
## Transfer of the clip pipeline along a strictly monotone field hom

The concrete Brillouin-zone runs of the program live in `ℝ` but take values
in subfields with computable arithmetic; these lemmas transport the whole
pipeline along any strictly monotone ring hom `φ`.
-/

section Transfer

variable {L : Type*} [LinearOrderedField L]

theorem mapPt_dot2 (φ : K →+* L) (u v : Pt K) :
    dot2 (mapPt φ u) (mapPt φ v) = φ (dot2 u v) := by
  simp [dot2, mapPt]

theorem mapPt_norm2 (φ : K →+* L) (v : Pt K) :
    norm2 (mapPt φ v) = φ (norm2 v) := by
  simp [norm2, mapPt]

theorem mapPt_sub (φ : K →+* L) (u v : Pt K) :
    mapPt φ (u - v) = mapPt φ u - mapPt φ v := by
  simp [mapPt, Prod.ext_iff, map_sub]

theorem mapPt_add (φ : K →+* L) (u v : Pt K) :
    mapPt φ (u + v) = mapPt φ u + mapPt φ v := by
  simp [mapPt, Prod.ext_iff, map_add]

theorem mapPt_smul2 (φ : K →+* L) (t : K) (v : Pt K) :
    mapPt φ (smul2 t v) = smul2 (φ t) (mapPt φ v) := by
  simp [mapPt, smul2, map_mul]

theorem mapPt_zsmul2 (φ : K →+* L) (m : ℤ) (v : Pt K) :
    mapPt φ (zsmul2 m v) = zsmul2 m (mapPt φ v) := by
  simp [mapPt, zsmul2, map_mul, map_intCast]

theorem map_abs_of_strictMono (φ : K →+* L) (hφ : StrictMono φ) (x : K) :
    |φ x| = φ |x| := by
  rcases abs_cases x with ⟨h1, h2⟩ | ⟨h1, h2⟩
  · rw [h1, abs_of_nonneg (by simpa using hφ.monotone h2)]
  · rw [h1, map_neg, abs_of_nonpos (by simpa using hφ.monotone h2.le)]

theorem insideB_map (φ : K →+* L) (hφ : StrictMono φ) (n : Pt K) (c eps : K)
    (p : Pt K) :
    insideB (mapPt φ n) (φ c) (φ eps) (mapPt φ p) = insideB n c eps p := by
  simp only [insideB, mapPt_dot2, ← map_add]
  exact decide_eq_decide.mpr hφ.le_iff_le

theorem intersectPt_map (φ : K →+* L) (hφ : StrictMono φ) (n : Pt K)
    (c eps : K) (p1 p2 : Pt K) :
    intersectPt (mapPt φ n) (φ c) (φ eps) (mapPt φ p1) (mapPt φ p2) =
      mapPt φ (intersectPt n c eps p1 p2) := by
  simp only [intersectPt, ← mapPt_sub, mapPt_dot2,
    map_abs_of_strictMono φ hφ]
  by_cases hg : |dot2 n (p2 - p1)| < eps
  · rw [if_pos (hφ hg), if_pos hg]
  · rw [if_neg (fun hc => hg (hφ.lt_iff_lt.mp hc)), if_neg hg,
      ← map_sub, ← map_div₀, ← map_one φ, ← map_zero φ,
      ← hφ.monotone.map_min, ← hφ.monotone.map_max, ← mapPt_smul2,
      ← mapPt_add]

theorem clipStep_map (φ : K →+* L) (hφ : StrictMono φ) (n : Pt K) (c eps : K)
    (prev cur : Pt K) :
    clipStep (mapPt φ n) (φ c) (φ eps) (mapPt φ prev) (mapPt φ cur) =
      (clipStep n c eps prev cur).map (mapPt φ) := by
  simp only [clipStep, insideB_map φ hφ, intersectPt_map φ hφ]
  by_cases h1 : insideB n c eps cur <;> by_cases h2 : insideB n c eps prev <;>
    simp [h1, h2]

theorem clipWalk_map (φ : K →+* L) (hφ : StrictMono φ) (n : Pt K) (c eps : K) :
    ∀ (prev : Pt K) (l : List (Pt K)),
      clipWalk (mapPt φ n) (φ c) (φ eps) (mapPt φ prev) (l.map (mapPt φ)) =
        (clipWalk n c eps prev l).map (mapPt φ)
  | _, [] => rfl
  | prev, cur :: rest => by
    simp only [List.map_cons, clipWalk, clipStep_map φ hφ, List.map_append,
      clipWalk_map φ hφ n c eps cur rest]

theorem clip_map (φ : K →+* L) (hφ : StrictMono φ) (poly : List (Pt K))
    (n : Pt K) (c eps : K) :
    _clip_polygon_halfplane (poly.map (mapPt φ)) (mapPt φ n) (φ c) (φ eps) =
      (_clip_polygon_halfplane poly n c eps).map (mapPt φ) := by
  simp only [_clip_polygon_halfplane, List.getLast?_map]
  cases h : poly.getLast? with
  | none => rfl
  | some lst => simp [Option.map_some, clipWalk_map φ hφ]

theorem map_epsDefault (φ : K →+* L) : φ (epsDefault K) = epsDefault L := by
  simp [epsDefault, map_div₀, map_pow, map_one, map_ofNat]

theorem bz_loop_map (φ : K →+* L) (hφ : StrictMono φ) :
    ∀ (Gs poly : List (Pt K)),
      bz_loop (Gs.map (mapPt φ)) (poly.map (mapPt φ)) =
        (bz_loop Gs poly).map (mapPt φ)
  | [], _ => rfl
  | G :: rest, poly => by
    simp only [List.map_cons, bz_loop]
    have hc : norm2 (mapPt φ G) / 2 = φ (norm2 G / 2) := by
      rw [mapPt_norm2, map_div₀, map_ofNat]
    rw [hc, ← map_epsDefault φ, clip_map φ hφ]
    by_cases h : _clip_polygon_halfplane poly G (norm2 G / 2) (epsDefault K) = []
    · rw [if_pos (by rw [h]; rfl), if_pos h, h]
    · rw [if_neg (by simpa using h), if_neg h, bz_loop_map φ hφ rest _]

theorem bz_square_map (φ : K →+* L) (R : K) :
    bz_square (φ R) = (bz_square R).map (mapPt φ) := by
  simp [bz_square, mapPt, map_neg]

theorem bz_from_Gs_map (φ : K →+* L) (hφ : StrictMono φ) (Gs : List (Pt K))
    (R : K) :
    bz_from_Gs (Gs.map (mapPt φ)) (φ R) =
      (bz_from_Gs Gs R).map (List.map (mapPt φ)) := by
  simp only [bz_from_Gs, bz_square_map φ R, bz_loop_map φ hφ]
  have hiff : ((bz_loop Gs (bz_square R)).map (mapPt φ) = [] ∨
      ((bz_loop Gs (bz_square R)).map (mapPt φ)).length < 3) ↔
      (bz_loop Gs (bz_square R) = [] ∨
        (bz_loop Gs (bz_square R)).length < 3) := by
    simp
  by_cases h : bz_loop Gs (bz_square R) = [] ∨
      (bz_loop Gs (bz_square R)).length < 3
  · rw [if_pos (hiff.mpr h), if_pos h]
    rfl
  · rw [if_neg (fun hc => h (hiff.mp hc)), if_neg h]
    rfl

theorem bz_candidates_sq_map (φ : K →+* L) (hφ : StrictMono φ) (b1 b2 : Pt K)
    (N : ℕ) :
    bz_candidates_sq (mapPt φ b1) (mapPt φ b2) N =
      (bz_candidates_sq b1 b2 N).map (mapPt φ) := by
  simp only [bz_candidates_sq]
  rw [List.map_flatMap]
  congr 1
  funext m
  rw [List.map_filterMap]
  congr 1
  funext n
  by_cases h0 : m = 0 ∧ n = 0
  · simp [h0]
  · have hG : zsmul2 m (mapPt φ b1) + zsmul2 n (mapPt φ b2) =
        mapPt φ (zsmul2 m b1 + zsmul2 n b2) := by
      rw [mapPt_add, mapPt_zsmul2, mapPt_zsmul2]
    have hlt : (0 < norm2 (mapPt φ (zsmul2 m b1 + zsmul2 n b2))) ↔
        (0 < norm2 (zsmul2 m b1 + zsmul2 n b2)) := by
      rw [mapPt_norm2, ← map_zero φ, hφ.lt_iff_lt]
    simp only [if_neg h0, hG]
    by_cases hp : 0 < norm2 (zsmul2 m b1 + zsmul2 n b2)
    · rw [if_pos (hlt.mpr hp), if_pos hp]
      rfl
    · rw [if_neg (fun hc => hp (hlt.mp hc)), if_neg hp]
      rfl

end Transfer

/-!
## Real-number reductions: `Real.sqrt` in the filter and the radius
-/

theorem bz_candidates_real (b1 b2 : Pt ℝ) (N : ℕ) :
    bz_candidates Real.sqrt b1 b2 N = bz_candidates_sq b1 b2 N := by
  simp only [bz_candidates, bz_candidates_sq, Real.sqrt_pos]

theorem foldl_max_map {L : Type*} [LinearOrderedField L] (f : K → L)
    (hf : Monotone f) :
    ∀ (l : List K) (a : K), (l.map f).foldl max (f a) = f (l.foldl max a)
  | [], _ => rfl
  | x :: xs, a => by
    simp only [List.map_cons, List.foldl_cons, ← hf.map_max,
      foldl_max_map f hf xs]

theorem pyMax_map_monotone {L : Type*} [LinearOrderedField L] (f : K → L)
    (hf : Monotone f) (h0 : f 0 = 0) (l : List K) :
    pyMax (l.map f) = f (pyMax l) := by
  cases l with
  | nil => simp [pyMax, h0]
  | cons x xs => exact foldl_max_map f hf xs x

theorem bz_radius_real (Gs : List (Pt ℝ)) :
    bz_radius Real.sqrt Gs = 5 / 2 * Real.sqrt (pyMax (Gs.map norm2)) := by
  unfold bz_radius
  congr 1
  have hmap : (Gs.map fun g => Real.sqrt (norm2 g)) =
      (Gs.map norm2).map Real.sqrt := by
    rw [List.map_map]
    rfl
  rw [hmap,
    pyMax_map_monotone Real.sqrt (fun _ _ h => Real.sqrt_le_sqrt h)
      Real.sqrt_zero]

theorem first_bz_eval (sqrt : K → K) (b1 b2 : Pt K) (N : ℕ)
    (h : bz_candidates sqrt b1 b2 N ≠ []) :
    first_bz_polygon_2d_from_b1b2 sqrt b1 b2 N =
      bz_from_Gs (bz_candidates sqrt b1 b2 N)
        (bz_radius sqrt (bz_candidates sqrt b1 b2 N)) := by
  simp [first_bz_polygon_2d_from_b1b2, h]

/-!
## Characterization of the no-neighbor (degenerate lattice) error
-/

theorem norm2_eq_zero (v : Pt K) : norm2 v = 0 ↔ v = 0 := by
  constructor
  · intro h
    have h1 := (add_eq_zero_iff_of_nonneg (mul_self_nonneg v.1)
      (mul_self_nonneg v.2)).mp h
    have e1 := mul_self_eq_zero.mp h1.1
    have e2 := mul_self_eq_zero.mp h1.2
    exact Prod.ext e1 e2
  · intro h
    rw [h]
    simp [norm2]

theorem norm2_nonneg (v : Pt K) : 0 ≤ norm2 v :=
  add_nonneg (mul_self_nonneg v.1) (mul_self_nonneg v.2)

theorem norm2_pos (v : Pt K) : 0 < norm2 v ↔ v ≠ 0 := by
  constructor
  · intro h hv
    rw [hv] at h
    simp [norm2] at h
  · intro hv
    exact lt_of_le_of_ne (norm2_nonneg v) fun h => hv ((norm2_eq_zero v).mp h.symm)

theorem mem_intRange (N : ℕ) (k : ℤ) : k ∈ intRange N ↔ -(N : ℤ) ≤ k ∧ k ≤ N := by
  constructor
  · intro hk
    obtain ⟨i, hi, hik⟩ :=
      (@List.mem_map ℕ ℤ k (fun i => (i : ℤ) - (N : ℤ))
        (List.range (2 * N + 1))).mp hk
    rw [List.mem_range] at hi
    have hik2 : (i : ℤ) - N = k := hik
    omega
  · intro h
    refine (@List.mem_map ℕ ℤ k (fun i => (i : ℤ) - (N : ℤ))
        (List.range (2 * N + 1))).mpr ⟨(k + N).toNat, ?_, ?_⟩
    · rw [List.mem_range]
      omega
    · show ((k + N).toNat : ℤ) - N = k
      omega

theorem bz_candidates_sq_eq_nil_iff (b1 b2 : Pt K) (N : ℕ) :
    bz_candidates_sq b1 b2 N = [] ↔ N = 0 ∨ (b1 = 0 ∧ b2 = 0) := by
  constructor
  · intro h
    by_cases hN : N = 0
    · exact Or.inl hN
    · refine Or.inr ⟨?_, ?_⟩
      · by_contra hb1
        have hmem : b1 ∈ bz_candidates_sq b1 b2 N := by
          simp only [bz_candidates_sq, List.mem_flatMap, List.mem_filterMap]
          refine ⟨1, (mem_intRange N 1).mpr (by omega), 0,
            (mem_intRange N 0).mpr (by omega), ?_⟩
          rw [if_neg (by simp)]
          have hG : zsmul2 1 b1 + zsmul2 0 b2 = b1 := by
            simp [zsmul2, Prod.ext_iff]
          rw [hG, if_pos ((norm2_pos b1).mpr hb1)]
        rw [h] at hmem
        exact absurd hmem (List.not_mem_nil b1)
      · by_contra hb2
        have hmem : b2 ∈ bz_candidates_sq b1 b2 N := by
          simp only [bz_candidates_sq, List.mem_flatMap, List.mem_filterMap]
          refine ⟨0, (mem_intRange N 0).mpr (by omega), 1,
            (mem_intRange N 1).mpr (by omega), ?_⟩
          rw [if_neg (by simp)]
          have hG : zsmul2 0 b1 + zsmul2 1 b2 = b2 := by
            simp [zsmul2, Prod.ext_iff]
          rw [hG, if_pos ((norm2_pos b2).mpr hb2)]
        rw [h] at hmem
        exact absurd hmem (List.not_mem_nil b2)
  · rintro (hN | ⟨h1, h2⟩)
    · subst hN
      rfl
    · subst h1
      subst h2
      simp only [bz_candidates_sq, List.flatMap_eq_nil_iff, List.filterMap_eq_nil_iff]
      intro m _ n _
      by_cases h0 : m = 0 ∧ n = 0
      · rw [if_pos h0]
      · rw [if_neg h0]
        have hG : zsmul2 m (0 : Pt K) + zsmul2 n (0 : Pt K) = 0 := by
          simp [zsmul2, Prod.ext_iff]
        rw [hG, if_neg (by simp [norm2])]

theorem first_bz_lattice_error_iff (sqrt : K → K) (b1 b2 : Pt K) (N : ℕ) :
    first_bz_polygon_2d_from_b1b2 sqrt b1 b2 N =
        .error "No neighbor G vectors generated" ↔
      bz_candidates sqrt b1 b2 N = [] := by
  constructor
  · intro h
    by_contra hc
    rw [first_bz_eval sqrt b1 b2 N hc] at h
    simp only [bz_from_Gs] at h
    split_ifs at h with hcond
    exact absurd (Except.error.inj h) (by decide)
  · intro h
    simp [first_bz_polygon_2d_from_b1b2, h]

/-- C5 counterexample: for the non-zero parallel basis vectors `b1 = (1,0)`,
`b2 = (2,0)` and `N = 1`, `first_bz_polygon_2d_from_b1b2` does not raise:
it returns the strip polygon clipped to the bounding square. -/
theorem parallel_basis_returns_polygon :
    first_bz_polygon_2d_from_b1b2 Real.sqrt ((1 : ℝ), 0) ((2 : ℝ), 0) 1 =
      .ok [(-(1 / 2 : ℝ), -(15 / 2)), ((1 / 2 : ℝ), -(15 / 2)),
        ((1 / 2 : ℝ), 15 / 2), (-(1 / 2 : ℝ), 15 / 2)] := by
  have hφ : StrictMono ⇑(Rat.castHom ℝ) := by
    rw [Rat.coe_castHom]
    exact Rat.cast_strictMono
  have hb1 : ((1 : ℝ), (0 : ℝ)) = mapPt (Rat.castHom ℝ) ((1 : ℚ), 0) := by
    simp [mapPt]
  have hb2 : ((2 : ℝ), (0 : ℝ)) = mapPt (Rat.castHom ℝ) ((2 : ℚ), 0) := by
    simp [mapPt]
  have hcand : bz_candidates Real.sqrt ((1 : ℝ), 0) ((2 : ℝ), 0) 1 =
      (bz_candidates_sq ((1 : ℚ), 0) ((2 : ℚ), 0) 1).map
        (mapPt (Rat.castHom ℝ)) := by
    rw [bz_candidates_real, hb1, hb2, bz_candidates_sq_map _ hφ]
  have hQ : bz_candidates_sq ((1 : ℚ), 0) ((2 : ℚ), 0) 1 ≠ [] := by
    with_unfolding_all decide
  have hne : bz_candidates Real.sqrt ((1 : ℝ), 0) ((2 : ℝ), 0) 1 ≠ [] := by
    rw [hcand]
    simpa using hQ
  rw [first_bz_eval _ _ _ _ hne, hcand]
  have hrad : bz_radius Real.sqrt
      ((bz_candidates_sq ((1 : ℚ), 0) ((2 : ℚ), 0) 1).map
        (mapPt (Rat.castHom ℝ))) = (Rat.castHom ℝ) ((15 : ℚ) / 2) := by
    rw [bz_radius_real]
    have hmm : ((bz_candidates_sq ((1 : ℚ), 0) ((2 : ℚ), 0) 1).map
        (mapPt (Rat.castHom ℝ))).map norm2 =
        ((bz_candidates_sq ((1 : ℚ), 0) ((2 : ℚ), 0) 1).map norm2).map
          ⇑(Rat.castHom ℝ) := by
      simp only [List.map_map]
      congr 1
      funext g
      exact mapPt_norm2 _ g
    rw [hmm, pyMax_map_monotone _ hφ.monotone (map_zero _)]
    have h9 : pyMax ((bz_candidates_sq ((1 : ℚ), 0) ((2 : ℚ), 0) 1).map norm2) =
        (9 : ℚ) := by with_unfolding_all decide
    rw [h9]
    have h9r : ((Rat.castHom ℝ) (9 : ℚ)) = (9 : ℝ) := by simp
    rw [h9r]
    have h3 : Real.sqrt 9 = 3 := by
      rw [show (9 : ℝ) = 3 ^ 2 by norm_num, Real.sqrt_sq (by norm_num)]
    rw [h3]
    simp
    norm_num
  rw [hrad, bz_from_Gs_map _ hφ]
  have hbz : bz_from_Gs (bz_candidates_sq ((1 : ℚ), 0) ((2 : ℚ), 0) 1)
      ((15 : ℚ) / 2) =
      .ok [(-(1 / 2 : ℚ), -(15 / 2)), ((1 / 2 : ℚ), -(15 / 2)),
        ((1 / 2 : ℚ), 15 / 2), (-(1 / 2 : ℚ), 15 / 2)] := by
    with_unfolding_all decide
  rw [hbz]
  simp only [Except.map, List.map_cons, List.map_nil, mapPt]
  norm_num

/-- C5 (amended): the no-neighbor (degenerate lattice) error is raised
exactly when the candidate set is empty, which happens exactly when `N = 0`
or both basis vectors are zero; in particular a non-zero `b1` with `N ≥ 1`
(so any pair of non-zero parallel vectors) never produces it. -/
theorem lattice_error_characterization (b1 b2 : Pt ℝ) (N : ℕ) :
    (first_bz_polygon_2d_from_b1b2 Real.sqrt b1 b2 N =
        .error "No neighbor G vectors generated" ↔
      N = 0 ∨ (b1 = 0 ∧ b2 = 0)) ∧
    (b1 ≠ 0 → 1 ≤ N →
      first_bz_polygon_2d_from_b1b2 Real.sqrt b1 b2 N ≠
        .error "No neighbor G vectors generated") := by
  have hmain : first_bz_polygon_2d_from_b1b2 Real.sqrt b1 b2 N =
      .error "No neighbor G vectors generated" ↔
      N = 0 ∨ (b1 = 0 ∧ b2 = 0) := by
    rw [first_bz_lattice_error_iff, bz_candidates_real,
      bz_candidates_sq_eq_nil_iff]
  refine ⟨hmain, fun hb1 hN h => ?_⟩
  rcases hmain.mp h with h0 | ⟨h1, _⟩
  · omega
  · exact hb1 h1

/-- C5 witness: the characterization applied to the parallel example. -/
theorem lattice_error_characterization_witness :
    (((1 : ℝ), (0 : ℝ)) ≠ 0 ∧ 1 ≤ 1) ∧
    first_bz_polygon_2d_from_b1b2 Real.sqrt ((1 : ℝ), 0) ((2 : ℝ), 0) 1 ≠
      .error "No neighbor G vectors generated" :=
  ⟨⟨by simp [Prod.ext_iff], le_refl 1⟩,
    (lattice_error_characterization ((1 : ℝ), 0) ((2 : ℝ), 0) 1).2
      (by simp [Prod.ext_iff]) (le_refl 1)⟩

/-!
## Properties of the embedding of `Q2` into the reals
-/

theorem Q2.ext2 {x y : Q2} (h1 : x.a = y.a) (h2 : x.b = y.b) : x = y := by
  cases x
  cases y
  cases h1
  cases h2
  rfl

theorem Q2.sqrt2_mul_self : Real.sqrt 2 * Real.sqrt 2 = 2 :=
  Real.mul_self_sqrt (by norm_num)

theorem Q2.sqrt2_pos : 0 < Real.sqrt 2 := Real.sqrt_pos.mpr (by norm_num)

theorem Q2.rat_mul_self_ne_two (q : ℚ) : q * q ≠ 2 := by
  intro h
  have h2 : (q : ℝ) * (q : ℝ) = 2 := by exact_mod_cast h
  have hsq : (2 : ℝ) = (q : ℝ) ^ 2 := by rw [sq]; exact h2.symm
  have habs : Real.sqrt 2 = |(q : ℝ)| := by rw [hsq, Real.sqrt_sq_eq_abs]
  have hirr := irrational_sqrt_two
  rw [habs, show |(q : ℝ)| = ((|q| : ℚ) : ℝ) from by push_cast; rfl] at hirr
  exact Rat.not_irrational _ hirr

theorem Q2.toReal_zero : Q2.toReal ⟨0, 0⟩ = 0 := by simp [Q2.toReal]

theorem Q2.toReal_one : Q2.toReal ⟨1, 0⟩ = 1 := by simp [Q2.toReal]

theorem Q2.toReal_add (x y : Q2) :
    Q2.toReal (Q2.add x y) = Q2.toReal x + Q2.toReal y := by
  simp only [Q2.toReal, Q2.add]
  push_cast
  ring

theorem Q2.toReal_neg (x : Q2) : Q2.toReal (Q2.neg x) = -Q2.toReal x := by
  simp only [Q2.toReal, Q2.neg]
  push_cast
  ring

theorem Q2.toReal_sub (x y : Q2) :
    Q2.toReal (Q2.sub x y) = Q2.toReal x - Q2.toReal y := by
  simp only [Q2.toReal, Q2.sub]
  push_cast
  ring

theorem Q2.toReal_mul (x y : Q2) :
    Q2.toReal (Q2.mul x y) = Q2.toReal x * Q2.toReal y := by
  simp only [Q2.toReal, Q2.mul]
  push_cast
  linear_combination (-(x.b : ℝ) * (y.b : ℝ)) * Q2.sqrt2_mul_self

theorem Q2.toReal_injective : Function.Injective Q2.toReal := by
  intro x y h
  unfold Q2.toReal at h
  by_cases hb : x.b = y.b
  · refine Q2.ext2 ?_ hb
    rw [hb] at h
    have h2 := add_right_cancel h
    exact_mod_cast h2
  · exfalso
    have hbne : ((y.b - x.b : ℚ) : ℝ) ≠ 0 := by
      push_cast
      intro hc
      exact hb (by exact_mod_cast (show (x.b : ℝ) = (y.b : ℝ) by linarith))
    have hs : Real.sqrt 2 = (((x.a - y.a) / (y.b - x.b) : ℚ) : ℝ) := by
      push_cast at hbne ⊢
      rw [eq_div_iff hbne]
      linear_combination -h
    exact Rat.not_irrational _ (hs ▸ irrational_sqrt_two)

theorem Q2.discr_ne_zero {x : Q2} (hx : x ≠ ⟨0, 0⟩) :
    x.a * x.a - 2 * (x.b * x.b) ≠ 0 := by
  intro h
  by_cases hb : x.b = 0
  · rw [hb] at h
    have ha : x.a = 0 := by
      have h2 : x.a * x.a = 0 := by linarith
      exact mul_self_eq_zero.mp h2
    exact hx (Q2.ext2 ha hb)
  · apply Q2.rat_mul_self_ne_two (x.a / x.b)
    field_simp
    linarith

theorem Q2.toReal_ne_zero {x : Q2} (hx : x ≠ ⟨0, 0⟩) : Q2.toReal x ≠ 0 := by
  intro hc
  exact hx (Q2.toReal_injective (by rw [hc, Q2.toReal_zero]))

theorem Q2.toReal_inv (x : Q2) : Q2.toReal (Q2.inv x) = (Q2.toReal x)⁻¹ := by
  by_cases hx : x = ⟨0, 0⟩
  · subst hx
    simp [Q2.inv, Q2.toReal]
  · have hd := Q2.discr_ne_zero hx
    have hr := Q2.toReal_ne_zero hx
    refine eq_inv_of_mul_eq_one_left ?_
    unfold Q2.toReal Q2.inv at *
    have hdr : ((x.a * x.a - 2 * (x.b * x.b) : ℚ) : ℝ) ≠ 0 := by
      exact_mod_cast hd
    push_cast at hdr ⊢
    field_simp
    linear_combination (-(x.b : ℝ) ^ 2) * Q2.sqrt2_mul_self

theorem Q2.nonnegB_iff (x : Q2) : Q2.nonnegB x = true ↔ 0 ≤ Q2.toReal x := by
  have hs2 := Q2.sqrt2_mul_self
  have hs0 := Q2.sqrt2_pos
  unfold Q2.nonnegB Q2.toReal
  rcases le_or_lt 0 x.a with ha | ha
  · have har : (0 : ℝ) ≤ (x.a : ℝ) := by exact_mod_cast ha
    rcases le_or_lt 0 x.b with hb | hb
    · have hbr : (0 : ℝ) ≤ (x.b : ℝ) := by exact_mod_cast hb
      rw [if_pos ha, if_pos hb]
      exact iff_of_true rfl (add_nonneg har (mul_nonneg hbr hs0.le))
    · have hbr : (x.b : ℝ) < 0 := by exact_mod_cast hb
      rw [if_pos ha, if_neg (not_le.mpr hb), decide_eq_true_eq]
      have hcast : (2 * (x.b * x.b) ≤ x.a * x.a) ↔
          2 * ((x.b : ℝ) * (x.b : ℝ)) ≤ (x.a : ℝ) * (x.a : ℝ) := by
        constructor
        · intro h
          exact_mod_cast h
        · intro h
          exact_mod_cast h
      rw [hcast]
      have h1 : 0 < (x.a : ℝ) - (x.b : ℝ) * Real.sqrt 2 := by
        nlinarith [mul_pos (neg_pos.mpr hbr) hs0]
      constructor
      · intro h
        nlinarith [h1, hs2]
      · intro h
        nlinarith [mul_nonneg h h1.le, hs2]
  · have har : (x.a : ℝ) < 0 := by exact_mod_cast ha
    rcases le_or_lt 0 x.b with hb | hb
    · have hbr : (0 : ℝ) ≤ (x.b : ℝ) := by exact_mod_cast hb
      rw [if_neg (not_le.mpr ha), if_pos hb, decide_eq_true_eq]
      have hcast : (x.a * x.a ≤ 2 * (x.b * x.b)) ↔
          (x.a : ℝ) * (x.a : ℝ) ≤ 2 * ((x.b : ℝ) * (x.b : ℝ)) := by
        constructor
        · intro h
          exact_mod_cast h
        · intro h
          exact_mod_cast h
      rw [hcast]
      have h1 : 0 < (x.b : ℝ) * Real.sqrt 2 - (x.a : ℝ) := by
        nlinarith [mul_nonneg hbr hs0.le]
      constructor
      · intro h
        nlinarith [h1, hs2, sq_nonneg (x.b : ℝ)]
      · intro h
        nlinarith [mul_nonneg h h1.le, hs2, sq_nonneg (x.b : ℝ)]
    · have hbr : (x.b : ℝ) < 0 := by exact_mod_cast hb
      rw [if_neg (not_le.mpr ha), if_neg (not_le.mpr hb)]
      refine iff_of_false (by simp) (not_le.mpr ?_)
      nlinarith [mul_neg_of_neg_of_pos hbr hs0]

/-!
## The field and linear order instances of `Q2`
-/

instance : Zero Q2 := ⟨⟨0, 0⟩⟩

instance : One Q2 := ⟨⟨1, 0⟩⟩

instance : Add Q2 := ⟨Q2.add⟩

instance : Mul Q2 := ⟨Q2.mul⟩

instance : Neg Q2 := ⟨Q2.neg⟩

instance : Inv Q2 := ⟨Q2.inv⟩

instance : Field Q2 :=
  Field.ofMinimalAxioms Q2
    (fun x y z => Q2.toReal_injective (by
      show Q2.toReal (Q2.add (Q2.add x y) z) =
        Q2.toReal (Q2.add x (Q2.add y z))
      rw [Q2.toReal_add, Q2.toReal_add, Q2.toReal_add, Q2.toReal_add]
      ring))
    (fun x => Q2.toReal_injective (by
      show Q2.toReal (Q2.add ⟨0, 0⟩ x) = Q2.toReal x
      rw [Q2.toReal_add, Q2.toReal_zero]
      ring))
    (fun x => Q2.toReal_injective (by
      show Q2.toReal (Q2.add (Q2.neg x) x) = Q2.toReal ⟨0, 0⟩
      rw [Q2.toReal_add, Q2.toReal_neg, Q2.toReal_zero]
      ring))
    (fun x y z => Q2.toReal_injective (by
      show Q2.toReal (Q2.mul (Q2.mul x y) z) =
        Q2.toReal (Q2.mul x (Q2.mul y z))
      rw [Q2.toReal_mul, Q2.toReal_mul, Q2.toReal_mul, Q2.toReal_mul]
      ring))
    (fun x y => Q2.toReal_injective (by
      show Q2.toReal (Q2.mul x y) = Q2.toReal (Q2.mul y x)
      rw [Q2.toReal_mul, Q2.toReal_mul]
      ring))
    (fun x => Q2.toReal_injective (by
      show Q2.toReal (Q2.mul ⟨1, 0⟩ x) = Q2.toReal x
      rw [Q2.toReal_mul, Q2.toReal_one]
      ring))
    (fun x hx => Q2.toReal_injective (by
      show Q2.toReal (Q2.mul x (Q2.inv x)) = Q2.toReal ⟨1, 0⟩
      rw [Q2.toReal_mul, Q2.toReal_inv, Q2.toReal_one]
      exact mul_inv_cancel₀ (Q2.toReal_ne_zero hx)))
    (by
      show Q2.inv ⟨0, 0⟩ = ⟨0, 0⟩
      simp [Q2.inv])
    (fun x y z => Q2.toReal_injective (by
      show Q2.toReal (Q2.mul x (Q2.add y z)) =
        Q2.toReal (Q2.add (Q2.mul x y) (Q2.mul x z))
      rw [Q2.toReal_mul, Q2.toReal_add, Q2.toReal_add, Q2.toReal_mul,
        Q2.toReal_mul]
      ring))
    ⟨⟨0, 0⟩, ⟨1, 0⟩, fun h => absurd (congrArg Q2.a h) (by norm_num)⟩

instance : LinearOrder Q2 where
  le x y := Q2.nonnegB (Q2.sub y x) = true
  le_refl x := by
    show Q2.nonnegB (Q2.sub x x) = true
    rw [Q2.nonnegB_iff, Q2.toReal_sub]
    linarith
  le_trans a b c hab hbc := by
    have hab2 : Q2.nonnegB (Q2.sub b a) = true := hab
    have hbc2 : Q2.nonnegB (Q2.sub c b) = true := hbc
    show Q2.nonnegB (Q2.sub c a) = true
    rw [Q2.nonnegB_iff, Q2.toReal_sub] at hab2 hbc2 ⊢
    linarith
  le_antisymm a b hab hba := Q2.toReal_injective (by
    have hab2 : Q2.nonnegB (Q2.sub b a) = true := hab
    have hba2 : Q2.nonnegB (Q2.sub a b) = true := hba
    rw [Q2.nonnegB_iff, Q2.toReal_sub] at hab2 hba2
    linarith)
  le_total a b := by
    show Q2.nonnegB (Q2.sub b a) = true ∨ Q2.nonnegB (Q2.sub a b) = true
    rw [Q2.nonnegB_iff, Q2.nonnegB_iff, Q2.toReal_sub, Q2.toReal_sub]
    rcases le_total (Q2.toReal a) (Q2.toReal b) with h | h
    · exact Or.inl (by linarith)
    · exact Or.inr (by linarith)
  decidableLE x y := instDecidableEqBool (Q2.nonnegB (Q2.sub y x)) true

theorem Q2.le_iff (x y : Q2) : x ≤ y ↔ Q2.toReal x ≤ Q2.toReal y := by
  show Q2.nonnegB (Q2.sub y x) = true ↔ Q2.toReal x ≤ Q2.toReal y
  rw [Q2.nonnegB_iff, Q2.toReal_sub]
  constructor
  · intro h
    linarith
  · intro h
    linarith

theorem Q2.lt_iff (x y : Q2) : x < y ↔ Q2.toReal x < Q2.toReal y := by
  rw [lt_iff_le_not_le, Q2.le_iff, Q2.le_iff, ← not_le]
  constructor
  · intro h
    exact not_le.mpr (lt_of_le_not_le h.1 (fun hc => h.2 hc))
  · intro h
    exact ⟨(not_le.mp h).le, fun hc => absurd hc (not_le.mpr (not_le.mp h))⟩

instance : LinearOrderedField Q2 where
  __ := (inferInstance : Field Q2)
  __ := (inferInstance : LinearOrder Q2)
  add_le_add_left a b hab c := by
    rw [Q2.le_iff] at hab ⊢
    show Q2.toReal (Q2.add c a) ≤ Q2.toReal (Q2.add c b)
    rw [Q2.toReal_add, Q2.toReal_add]
    linarith
  zero_le_one := by
    rw [Q2.le_iff]
    show Q2.toReal ⟨0, 0⟩ ≤ Q2.toReal ⟨1, 0⟩
    rw [Q2.toReal_zero, Q2.toReal_one]
    norm_num
  mul_pos a b ha hb := by
    rw [Q2.lt_iff] at ha hb ⊢
    show Q2.toReal ⟨0, 0⟩ < Q2.toReal (Q2.mul a b)
    rw [Q2.toReal_zero, Q2.toReal_mul]
    rw [show Q2.toReal 0 = Q2.toReal ⟨0, 0⟩ from rfl, Q2.toReal_zero] at ha hb
    exact mul_pos ha hb

/-- The embedding as a ring hom. -/
noncomputable def Q2.toRealHom : Q2 →+* ℝ where
  toFun := Q2.toReal
  map_one' := Q2.toReal_one
  map_mul' := Q2.toReal_mul
  map_zero' := Q2.toReal_zero
  map_add' := Q2.toReal_add

theorem Q2.toRealHom_apply (x : Q2) : Q2.toRealHom x = Q2.toReal x := rfl

theorem Q2.toRealHom_strictMono : StrictMono ⇑Q2.toRealHom :=
  fun x y h => (Q2.lt_iff x y).mp h

/-!
## The square-lattice Brillouin zone
-/

set_option maxRecDepth 1000000 in
theorem square_lattice_bz_eval :
    first_bz_polygon_2d_from_b1b2 Real.sqrt ((1 : ℝ), 0) ((0 : ℝ), 1) 2 =
      .ok squareBZpoly := by
  have hφ := Q2.toRealHom_strictMono
  have hb1 : ((1 : ℝ), (0 : ℝ)) =
      mapPt Q2.toRealHom ((⟨1, 0⟩ : Q2), (⟨0, 0⟩ : Q2)) := by
    simp [mapPt, Q2.toRealHom_apply, Q2.toReal, Prod.ext_iff]
  have hb2 : ((0 : ℝ), (1 : ℝ)) =
      mapPt Q2.toRealHom ((⟨0, 0⟩ : Q2), (⟨1, 0⟩ : Q2)) := by
    simp [mapPt, Q2.toRealHom_apply, Q2.toReal, Prod.ext_iff]
  have hcand : bz_candidates Real.sqrt ((1 : ℝ), 0) ((0 : ℝ), 1) 2 =
      (bz_candidates_sq ((⟨1, 0⟩ : Q2), (⟨0, 0⟩ : Q2))
          ((⟨0, 0⟩ : Q2), (⟨1, 0⟩ : Q2)) 2).map (mapPt Q2.toRealHom) := by
    rw [bz_candidates_real, hb1, hb2, bz_candidates_sq_map _ hφ]
  have hQne : bz_candidates_sq ((⟨1, 0⟩ : Q2), (⟨0, 0⟩ : Q2))
      ((⟨0, 0⟩ : Q2), (⟨1, 0⟩ : Q2)) 2 ≠ [] := by
    with_unfolding_all decide
  have hne : bz_candidates Real.sqrt ((1 : ℝ), 0) ((0 : ℝ), 1) 2 ≠ [] := by
    rw [hcand]
    simpa using hQne
  rw [first_bz_eval _ _ _ _ hne, hcand]
  have hrad : bz_radius Real.sqrt
      ((bz_candidates_sq ((⟨1, 0⟩ : Q2), (⟨0, 0⟩ : Q2))
          ((⟨0, 0⟩ : Q2), (⟨1, 0⟩ : Q2)) 2).map (mapPt Q2.toRealHom)) =
      Q2.toRealHom (⟨0, 5⟩ : Q2) := by
    rw [bz_radius_real]
    have hmm : ((bz_candidates_sq ((⟨1, 0⟩ : Q2), (⟨0, 0⟩ : Q2))
        ((⟨0, 0⟩ : Q2), (⟨1, 0⟩ : Q2)) 2).map (mapPt Q2.toRealHom)).map norm2 =
        ((bz_candidates_sq ((⟨1, 0⟩ : Q2), (⟨0, 0⟩ : Q2))
          ((⟨0, 0⟩ : Q2), (⟨1, 0⟩ : Q2)) 2).map norm2).map ⇑Q2.toRealHom := by
      simp only [List.map_map]
      congr 1
      funext g
      exact mapPt_norm2 _ g
    rw [hmm, pyMax_map_monotone _ hφ.monotone (map_zero _)]
    have h8 : pyMax ((bz_candidates_sq ((⟨1, 0⟩ : Q2), (⟨0, 0⟩ : Q2))
        ((⟨0, 0⟩ : Q2), (⟨1, 0⟩ : Q2)) 2).map norm2) = (⟨8, 0⟩ : Q2) := by
      with_unfolding_all decide
    rw [h8]
    have h8r : Q2.toRealHom (⟨8, 0⟩ : Q2) = (8 : ℝ) := by
      simp [Q2.toRealHom_apply, Q2.toReal]
    rw [h8r, Q2.toRealHom_apply]
    have hsq8 : Real.sqrt 8 = 2 * Real.sqrt 2 := by
      rw [show (8 : ℝ) = 2 ^ 2 * 2 by norm_num,
        Real.sqrt_mul (by positivity) 2, Real.sqrt_sq (by norm_num)]
    rw [hsq8]
    simp [Q2.toReal]
    ring
  rw [hrad, bz_from_Gs_map _ hφ]
  have hbz : bz_from_Gs (bz_candidates_sq ((⟨1, 0⟩ : Q2), (⟨0, 0⟩ : Q2))
      ((⟨0, 0⟩ : Q2), (⟨1, 0⟩ : Q2)) 2) ⟨0, 5⟩ =
      .ok [((⟨1/2, 0⟩ : Q2), (⟨-(1/2), 0⟩ : Q2)),
        ((⟨1/2, 0⟩ : Q2), (⟨1/2, 0⟩ : Q2)),
        ((⟨-(1/2), 0⟩ : Q2), (⟨1/2, 0⟩ : Q2)),
        ((⟨-(1/2), 0⟩ : Q2), (⟨1/2, 0⟩ : Q2)),
        ((⟨-(1/2), 0⟩ : Q2), (⟨-(1/2), 0⟩ : Q2)),
        ((⟨-(1/2), 0⟩ : Q2), (⟨-(1/2), 0⟩ : Q2)),
        ((⟨1/2, 0⟩ : Q2), (⟨-(1/2), 0⟩ : Q2))] := by
    with_unfolding_all decide
  rw [hbz]
  simp only [Except.map, List.map_cons, List.map_nil, mapPt,
    Q2.toRealHom_apply, Q2.toReal, squareBZpoly]
  norm_num

/-- C1: for the square reciprocal lattice `b1 = (1,0)`, `b2 = (0,1)` with
`N = 2`, `first_bz_polygon_2d_from_b1b2` returns a polygon whose vertex set
is exactly the four points `(±1/2, ±1/2)` (exact in real arithmetic, hence
within any tolerance), listed in counter-clockwise order (positive shoelace
area); two of the vertices are emitted twice because clip boundaries pass
exactly through them. -/
theorem square_lattice_first_bz :
    (first_bz_polygon_2d_from_b1b2 Real.sqrt ((1 : ℝ), 0) ((0 : ℝ), 1) 2 =
      .ok squareBZpoly) ∧
    (∀ p : Pt ℝ, p ∈ squareBZpoly ↔
      (p = ((1 / 2 : ℝ), 1 / 2) ∨ p = (-(1 / 2 : ℝ), 1 / 2) ∨
        p = (-(1 / 2 : ℝ), -(1 / 2)) ∨ p = ((1 / 2 : ℝ), -(1 / 2)))) ∧
    0 < sArea2 squareBZpoly := by
  refine ⟨square_lattice_bz_eval, fun p => ?_, ?_⟩
  · simp only [squareBZpoly, List.mem_cons, List.not_mem_nil, or_false]
    tauto
  · norm_num [squareBZpoly, sArea2, sArea2Go, cross2]

/-!
## The vertices never escape the initial bounding square
-/

theorem seg_inSquare {R : K} {p1 p2 : Pt K} (h1 : inSquare R p1)
    (h2 : inSquare R p2) {u : K} (h0 : 0 ≤ u) (hle1 : u ≤ 1) :
    inSquare R (p1 + smul2 u (p2 - p1)) := by
  obtain ⟨hx1, hy1⟩ := h1
  obtain ⟨hx2, hy2⟩ := h2
  rw [abs_le] at hx1 hy1 hx2 hy2
  have hfst : (p1 + smul2 u (p2 - p1)).1 = p1.1 + u * (p2.1 - p1.1) := rfl
  have hsnd : (p1 + smul2 u (p2 - p1)).2 = p1.2 + u * (p2.2 - p1.2) := rfl
  constructor
  · rw [hfst, abs_le]
    constructor
    · nlinarith [mul_nonneg h0 (by linarith : (0 : K) ≤ p2.1 + R),
        mul_nonneg (by linarith : (0 : K) ≤ 1 - u)
          (by linarith : (0 : K) ≤ p1.1 + R)]
    · nlinarith [mul_nonneg h0 (by linarith : (0 : K) ≤ R - p2.1),
        mul_nonneg (by linarith : (0 : K) ≤ 1 - u)
          (by linarith : (0 : K) ≤ R - p1.1)]
  · rw [hsnd, abs_le]
    constructor
    · nlinarith [mul_nonneg h0 (by linarith : (0 : K) ≤ p2.2 + R),
        mul_nonneg (by linarith : (0 : K) ≤ 1 - u)
          (by linarith : (0 : K) ≤ p1.2 + R)]
    · nlinarith [mul_nonneg h0 (by linarith : (0 : K) ≤ R - p2.2),
        mul_nonneg (by linarith : (0 : K) ≤ 1 - u)
          (by linarith : (0 : K) ≤ R - p1.2)]

theorem intersectPt_inSquare {R : K} {n : Pt K} {c eps : K} {p1 p2 : Pt K}
    (h1 : inSquare R p1) (h2 : inSquare R p2) :
    inSquare R (intersectPt n c eps p1 p2) := by
  simp only [intersectPt]
  split_ifs with hg
  · exact h1
  · exact seg_inSquare h1 h2 (le_max_left _ _)
      (max_le zero_le_one (min_le_left _ _))

theorem clipStep_inSquare {R : K} {n : Pt K} {c eps : K} {prev cur : Pt K}
    (h1 : inSquare R prev) (h2 : inSquare R cur) :
    ∀ q ∈ clipStep n c eps prev cur, inSquare R q := by
  intro q hq
  unfold clipStep at hq
  split_ifs at hq <;> simp only [List.mem_cons, List.mem_singleton,
    List.not_mem_nil, or_false] at hq
  · rw [hq]
    exact h2
  · rcases hq with hq | hq
    · rw [hq]
      exact intersectPt_inSquare h1 h2
    · rw [hq]
      exact h2
  · rw [hq]
    exact intersectPt_inSquare h1 h2

theorem clipWalk_inSquare {R : K} {n : Pt K} {c eps : K} :
    ∀ (prev : Pt K) (l : List (Pt K)), inSquare R prev →
      (∀ p ∈ l, inSquare R p) →
      ∀ q ∈ clipWalk n c eps prev l, inSquare R q
  | _, [], _, _ => by
    intro q hq
    cases hq
  | prev, cur :: rest, hp, hl => by
    intro q hq
    rw [show clipWalk n c eps prev (cur :: rest) =
      clipStep n c eps prev cur ++ clipWalk n c eps cur rest from rfl,
      List.mem_append] at hq
    rcases hq with hq | hq
    · exact clipStep_inSquare hp (hl cur (List.mem_cons_self cur rest)) q hq
    · exact clipWalk_inSquare cur rest (hl cur (List.mem_cons_self cur rest))
        (fun p hp' => hl p (List.mem_cons_of_mem cur hp')) q hq

theorem clip_inSquare {R : K} {n : Pt K} {c eps : K} {poly : List (Pt K)}
    (h : ∀ p ∈ poly, inSquare R p) :
    ∀ q ∈ _clip_polygon_halfplane poly n c eps, inSquare R q := by
  unfold _clip_polygon_halfplane
  cases hl : poly.getLast? with
  | none =>
    intro q hq
    cases hq
  | some lst =>
    exact clipWalk_inSquare lst poly
      (h lst (List.mem_of_getLast?_eq_some hl)) h

theorem bz_loop_inSquare {R : K} :
    ∀ (Gs poly : List (Pt K)), (∀ p ∈ poly, inSquare R p) →
      ∀ q ∈ bz_loop Gs poly, inSquare R q
  | [], _, h => h
  | G :: rest, poly, h => by
    simp only [bz_loop]
    split_ifs with hc
    · intro q hq
      rw [hc] at hq
      cases hq
    · exact bz_loop_inSquare rest _ (clip_inSquare h)

theorem bz_square_inSquare {R : K} (hR : 0 ≤ R) :
    ∀ p ∈ bz_square R, inSquare R p := by
  intro p hp
  have habs : |R| ≤ R := by rw [abs_of_nonneg hR]
  have hnabs : |-R| ≤ R := by rw [abs_neg, abs_of_nonneg hR]
  simp only [bz_square, List.mem_cons, List.not_mem_nil, or_false] at hp
  rcases hp with rfl | rfl | rfl | rfl <;> exact ⟨by assumption, by assumption⟩

theorem le_foldl_max : ∀ (l : List K) (a : K), a ≤ l.foldl max a
  | [], a => le_refl a
  | x :: xs, a => le_trans (le_max_left a x) (le_foldl_max xs (max a x))

theorem bz_radius_real_nonneg (Gs : List (Pt ℝ)) :
    0 ≤ bz_radius Real.sqrt Gs := by
  unfold bz_radius
  cases Gs with
  | nil => simp [pyMax]
  | cons g gs =>
    have h1 : (0 : ℝ) ≤ Real.sqrt (norm2 g) := Real.sqrt_nonneg _
    have h2 := le_foldl_max (gs.map fun x => Real.sqrt (norm2 x))
      (Real.sqrt (norm2 g))
    have h3 : (0 : ℝ) ≤ pyMax ((g :: gs).map fun x => Real.sqrt (norm2 x)) := by
      simp only [List.map_cons, pyMax]
      linarith
    linarith

/-- C9: every vertex of a successfully returned Brillouin-zone polygon stays
inside the initial bounding square: each coordinate is at most
`R = 2.5 * max |G|` in absolute value, because each clip emits only input
vertices or clamped points of segments between consecutive input vertices. -/
theorem first_bz_vertices_bounded (b1 b2 : Pt ℝ) (N : ℕ) (poly : List (Pt ℝ))
    (h : first_bz_polygon_2d_from_b1b2 Real.sqrt b1 b2 N = .ok poly) :
    ∀ p ∈ poly,
      |p.1| ≤ bz_radius Real.sqrt (bz_candidates Real.sqrt b1 b2 N) ∧
      |p.2| ≤ bz_radius Real.sqrt (bz_candidates Real.sqrt b1 b2 N) := by
  by_cases hc : bz_candidates Real.sqrt b1 b2 N = []
  · rw [first_bz_polygon_2d_from_b1b2] at h
    simp only [hc, if_pos] at h
    exact absurd h (by simp)
  · rw [first_bz_eval _ _ _ _ hc] at h
    simp only [bz_from_Gs] at h
    split_ifs at h with hcond
    have hpoly := Except.ok.inj h
    intro p hp
    rw [← hpoly] at hp
    have hR := bz_radius_real_nonneg (bz_candidates Real.sqrt b1 b2 N)
    exact bz_loop_inSquare _ _ (bz_square_inSquare hR) p hp

/-- C9 witness: the bound at the square-lattice run. -/
theorem first_bz_vertices_bounded_witness :
    (first_bz_polygon_2d_from_b1b2 Real.sqrt ((1 : ℝ), 0) ((0 : ℝ), 1) 2 =
      .ok squareBZpoly) ∧
    ∀ p ∈ squareBZpoly,
      |p.1| ≤ bz_radius Real.sqrt
        (bz_candidates Real.sqrt ((1 : ℝ), 0) ((0 : ℝ), 1) 2) ∧
      |p.2| ≤ bz_radius Real.sqrt
        (bz_candidates Real.sqrt ((1 : ℝ), 0) ((0 : ℝ), 1) 2) :=
  ⟨square_lattice_bz_eval,
    first_bz_vertices_bounded ((1 : ℝ), 0) ((0 : ℝ), 1) 2 squareBZpoly
      square_lattice_bz_eval⟩

/-!
## Idempotence of the half-plane clip
-/

theorem dot2_sub (n p q : Pt K) : dot2 n (p - q) = dot2 n p - dot2 n q := by
  simp only [dot2, Prod.fst_sub, Prod.snd_sub]
  ring

theorem dot2_add_smul2 (n p : Pt K) (u : K) (d : Pt K) :
    dot2 n (p + smul2 u d) = dot2 n p + u * dot2 n d := by
  simp only [dot2, smul2, Prod.fst_add, Prod.snd_add]
  ring

theorem intersectPt_insideB {n : Pt K} {c eps : K} {p1 p2 : Pt K}
    (heps : 0 ≤ eps) (hg : ¬ |dot2 n (p2 - p1)| < eps)
    (hin : insideB n c eps p1 = true ∨ insideB n c eps p2 = true) :
    insideB n c eps (intersectPt n c eps p1 p2) = true := by
  simp only [insideB, decide_eq_true_eq] at hin ⊢
  simp only [intersectPt, if_neg hg]
  rw [dot2_add_smul2]
  set D := dot2 n (p2 - p1) with hD
  have hD2 : D = dot2 n p2 - dot2 n p1 := by rw [hD, dot2_sub]
  set t := (c - dot2 n p1) / D with ht
  by_cases hDz : D = 0
  · have ht0 : t = 0 := by rw [ht, hDz]; exact div_zero _
    have hclamp : max 0 (min 1 t) = 0 := by
      rw [ht0, min_eq_right zero_le_one, max_self]
    rw [hclamp, zero_mul, add_zero]
    rcases hin with h | h
    · exact h
    · rw [hDz] at hD2
      linarith
  · have htD : t * D = c - dot2 n p1 := div_mul_cancel₀ _ hDz
    rcases le_or_lt t 0 with h0 | h0
    · have hclamp : max 0 (min 1 t) = 0 :=
        max_eq_left (le_trans (min_le_right 1 t) h0)
      rw [hclamp, zero_mul, add_zero]
      rcases hin with h | h
      · exact h
      · by_contra hout
        push_neg at hout
        have hDneg : D < 0 := by rw [hD2]; linarith
        have hnum : c - dot2 n p1 < 0 := by linarith
        have hpos : 0 < t := by rw [ht]; exact div_pos_of_neg_of_neg hnum hDneg
        linarith
    · rcases le_or_lt 1 t with h1 | h1
      · have hclamp : max 0 (min 1 t) = 1 := by
          rw [min_eq_left h1, max_eq_right zero_le_one]
        rw [hclamp, one_mul, hD2]
        have hgoal : dot2 n p1 + (dot2 n p2 - dot2 n p1) = dot2 n p2 := by ring
        rw [hgoal]
        rcases hin with h | h
        · by_contra hout
          push_neg at hout
          have hDpos : 0 < D := by rw [hD2]; linarith
          have h2 : D ≤ t * D := le_mul_of_one_le_left (le_of_lt hDpos) h1
          rw [htD, hD2] at h2
          linarith
        · exact h
      · have hclamp : max 0 (min 1 t) = t := by
          rw [min_eq_right (le_of_lt h1), max_eq_right (le_of_lt h0)]
        rw [hclamp, htD]
        linarith

theorem clipStep_insideB {n : Pt K} {c eps : K} {prev cur : Pt K}
    (heps : 0 ≤ eps)
    (hedge : insideB n c eps prev ≠ insideB n c eps cur →
      eps ≤ |dot2 n (cur - prev)|) :
    ∀ q ∈ clipStep n c eps prev cur, insideB n c eps q = true := by
  intro q hq
  unfold clipStep at hq
  split_ifs at hq with hc hp hp <;> simp only [List.mem_cons,
    List.not_mem_nil, or_false] at hq
  · rw [hq]
    exact hc
  · have hpf : insideB n c eps prev = false := Bool.eq_false_iff.mpr hp
    have hne : insideB n c eps prev ≠ insideB n c eps cur := by
      rw [hpf, hc]
      decide
    have hg : ¬ |dot2 n (cur - prev)| < eps := not_lt.mpr (hedge hne)
    rcases hq with hq | hq
    · rw [hq]
      exact intersectPt_insideB heps hg (Or.inr hc)
    · rw [hq]
      exact hc
  · have hcf : insideB n c eps cur = false := Bool.eq_false_iff.mpr hc
    have hne : insideB n c eps prev ≠ insideB n c eps cur := by
      rw [hcf, hp]
      decide
    have hg : ¬ |dot2 n (cur - prev)| < eps := not_lt.mpr (hedge hne)
    rw [hq]
    exact intersectPt_insideB heps hg (Or.inl hp)

theorem clipWalk_insideB {n : Pt K} {c eps : K} (heps : 0 ≤ eps) :
    ∀ (prev : Pt K) (l : List (Pt K)),
      (∀ pq ∈ (prev :: l).zip l,
        insideB n c eps pq.1 ≠ insideB n c eps pq.2 →
        eps ≤ |dot2 n (pq.2 - pq.1)|) →
      ∀ q ∈ clipWalk n c eps prev l, insideB n c eps q = true
  | _, [], _ => by
    intro q hq
    cases hq
  | prev, cur :: rest, hl => by
    intro q hq
    rw [show clipWalk n c eps prev (cur :: rest) =
      clipStep n c eps prev cur ++ clipWalk n c eps cur rest from rfl,
      List.mem_append] at hq
    have hzip : (prev, cur) ∈ (prev :: cur :: rest).zip (cur :: rest) :=
      List.mem_cons_self _ _
    rcases hq with hq | hq
    · exact clipStep_insideB heps (hl (prev, cur) hzip) q hq
    · exact clipWalk_insideB heps cur rest
        (fun pq hpq => hl pq (List.mem_cons_of_mem _ hpq)) q hq

theorem clip_insideB {n : Pt K} {c eps : K} {poly : List (Pt K)}
    (heps : 0 ≤ eps) (hng : NoGrazingEdges n c eps poly) :
    ∀ q ∈ _clip_polygon_halfplane poly n c eps, insideB n c eps q = true := by
  unfold _clip_polygon_halfplane
  cases hl : poly.getLast? with
  | none =>
    intro q hq
    cases hq
  | some lst =>
    refine clipWalk_insideB heps lst poly (fun pq hpq => ?_)
    refine hng pq ?_
    unfold cyclicPairs
    rw [hl]
    exact hpq

theorem clipStep_of_inside {n : Pt K} {c eps : K} {prev cur : Pt K}
    (hp : insideB n c eps prev = true) (hc : insideB n c eps cur = true) :
    clipStep n c eps prev cur = [cur] := by
  unfold clipStep
  simp [hp, hc]

theorem clipWalk_of_all_inside {n : Pt K} {c eps : K} :
    ∀ (prev : Pt K) (l : List (Pt K)), insideB n c eps prev = true →
      (∀ p ∈ l, insideB n c eps p = true) →
      clipWalk n c eps prev l = l
  | _, [], _, _ => rfl
  | prev, cur :: rest, hp, hl => by
    have hc := hl cur (List.mem_cons_self cur rest)
    rw [show clipWalk n c eps prev (cur :: rest) =
      clipStep n c eps prev cur ++ clipWalk n c eps cur rest from rfl,
      clipStep_of_inside hp hc,
      clipWalk_of_all_inside cur rest hc
        (fun p h => hl p (List.mem_cons_of_mem cur h))]
    rfl

theorem clip_of_all_inside {n : Pt K} {c eps : K} {poly : List (Pt K)}
    (h : ∀ p ∈ poly, insideB n c eps p = true) :
    _clip_polygon_halfplane poly n c eps = poly := by
  cases poly with
  | nil => rfl
  | cons a l =>
    unfold _clip_polygon_halfplane
    cases hl : (a :: l).getLast? with
    | none => exact absurd hl (by simp)
    | some lst =>
      exact clipWalk_of_all_inside lst (a :: l)
        (h lst (List.mem_of_getLast?_eq_some hl)) h

theorem mem_allPairs {α : Type*} :
    ∀ (l : List α) (a b : α), (a, b) ∈ allPairs l ↔ List.Sublist [a, b] l
  | [], a, b => by
    simp only [allPairs, List.not_mem_nil, false_iff]
    intro h
    cases h
  | x :: xs, a, b => by
    simp only [allPairs, List.mem_append, List.mem_map]
    constructor
    · rintro (⟨y, hy, heq⟩ | h)
      · rw [Prod.mk.injEq] at heq
        obtain ⟨rfl, rfl⟩ := heq
        exact List.Sublist.cons₂ x (List.singleton_sublist.mpr hy)
      · exact List.Sublist.cons x ((mem_allPairs xs a b).mp h)
    · intro h
      cases h with
      | cons _ h => exact Or.inr ((mem_allPairs xs a b).mpr h)
      | cons₂ _ h => exact Or.inl ⟨b, List.singleton_sublist.mp h, rfl⟩

theorem mem_allTriples {α : Type*} :
    ∀ (l : List α) (a b c : α),
      (a, b, c) ∈ allTriples l ↔ List.Sublist [a, b, c] l
  | [], a, b, c => by
    simp only [allTriples, List.not_mem_nil, false_iff]
    intro h
    cases h
  | x :: xs, a, b, c => by
    simp only [allTriples, List.mem_append, List.mem_map]
    constructor
    · rintro (⟨qr, hqr, heq⟩ | h)
      · rw [Prod.mk.injEq, Prod.mk.injEq] at heq
        obtain ⟨rfl, rfl, rfl⟩ := heq
        exact List.Sublist.cons₂ x ((mem_allPairs xs qr.1 qr.2).mp hqr)
      · exact List.Sublist.cons x ((mem_allTriples xs a b c).mp h)
    · intro h
      cases h with
      | cons _ h => exact Or.inr ((mem_allTriples xs a b c).mpr h)
      | cons₂ _ h => exact Or.inl ⟨(b, c), (mem_allPairs xs b c).mpr h, rfl⟩

theorem convexCCWb_iff (l : List (Pt K)) :
    convexCCWb l = true ↔ ConvexCCW l := by
  simp only [convexCCWb, List.all_eq_true, decide_eq_true_eq]
  constructor
  · intro h p q r hs
    exact h (p, q, r) ((mem_allTriples l p q r).mpr hs)
  · intro h t ht
    obtain ⟨a, b, c⟩ := t
    exact h a b c ((mem_allTriples l a b c).mp ht)

set_option maxRecDepth 1000000 in
/-- C3 counterexample: a convex counter-clockwise triangle, at the default
tolerance scale, on which the half-plane clip is not idempotent: both edges
crossing the boundary are eps-grazing, the near-parallel guard therefore
emits the outside apex on the first clip, and the second clip by the same
half-plane emits a different (longer) vertex sequence. -/
theorem clip_not_idempotent :
    ConvexCCW grazeTriangle ∧
    _clip_polygon_halfplane
        (_clip_polygon_halfplane grazeTriangle ((0 : ℚ), 1) 0 (epsDefault ℚ))
        ((0 : ℚ), 1) 0 (epsDefault ℚ) ≠
      _clip_polygon_halfplane grazeTriangle ((0 : ℚ), 1) 0 (epsDefault ℚ) := by
  refine ⟨(convexCCWb_iff grazeTriangle).mp (by with_unfolding_all decide),
    fun h => ?_⟩
  have h5 : (_clip_polygon_halfplane
      (_clip_polygon_halfplane grazeTriangle ((0 : ℚ), 1) 0 (epsDefault ℚ))
      ((0 : ℚ), 1) 0 (epsDefault ℚ)).length = 5 := by
    with_unfolding_all decide
  have h4 : (_clip_polygon_halfplane grazeTriangle ((0 : ℚ), 1) 0
      (epsDefault ℚ)).length = 4 := by
    with_unfolding_all decide
  rw [h, h4] at h5
  exact absurd h5 (by decide)

/-- C3 (amended): with a nonnegative tolerance, if no boundary-straddling
cyclic edge of the input polygon is eps-grazing, then every vertex emitted
by the clip lies inside the half-plane, and clipping a second time by the
same half-plane returns the first output unchanged; no convexity or
orientation hypothesis is needed. -/
theorem clip_idempotent_of_no_grazing (n : Pt K) (c eps : K)
    (poly : List (Pt K)) (heps : 0 ≤ eps)
    (hng : NoGrazingEdges n c eps poly) :
    _clip_polygon_halfplane (_clip_polygon_halfplane poly n c eps) n c eps =
      _clip_polygon_halfplane poly n c eps :=
  clip_of_all_inside (clip_insideB heps hng)

set_option maxRecDepth 1000000 in
/-- C3 witness: the amended idempotence applied to a concrete square and
half-plane through its interior. -/
theorem clip_idempotent_of_no_grazing_witness :
    (0 : ℚ) ≤ epsDefault ℚ ∧
    NoGrazingEdges ((1 : ℚ), 0) 0 (epsDefault ℚ) unitSqQ ∧
    _clip_polygon_halfplane
        (_clip_polygon_halfplane unitSqQ ((1 : ℚ), 0) 0 (epsDefault ℚ))
        ((1 : ℚ), 0) 0 (epsDefault ℚ) =
      _clip_polygon_halfplane unitSqQ ((1 : ℚ), 0) 0 (epsDefault ℚ) :=
  ⟨by with_unfolding_all decide,
    by unfold NoGrazingEdges; with_unfolding_all decide,
    clip_idempotent_of_no_grazing ((1 : ℚ), 0) 0 (epsDefault ℚ) unitSqQ
      (by with_unfolding_all decide)
      (by unfold NoGrazingEdges; with_unfolding_all decide)⟩

/-!
## Area monotonicity of the half-plane clip

The clip output is a subsequence of a refined walk that inserts, for every
cyclic edge, the (clamped, hence on-segment) intersection point between the
previous and the current vertex; on-segment insertion keeps the shoelace sum
and convex counter-clockwise position, and removing vertices from a convex
counter-clockwise polygon only removes area.
-/

/-- Sum of cross products along a path from a starting point (no closing
term). -/
def pathSum : Pt K → List (Pt K) → K
  | _, [] => 0
  | p, q :: l => cross2 p q + pathSum q l

/-- The refinement of the clip walk that always emits both the intersection
point and the current vertex for every edge. -/
def fullWalk (n : Pt K) (c eps : K) : Pt K → List (Pt K) → List (Pt K)
  | _, [] => []
  | prev, cur :: rest =>
      intersectPt n c eps prev cur :: cur :: fullWalk n c eps cur rest

/-- The cyclic shoelace sum written as a path sum started at the last
vertex. -/
def cyc (l : List (Pt K)) : K := pathSum (l.getLastD 0) l

theorem triArea2_rot (a b c : Pt K) : triArea2 a b c = triArea2 b c a := by
  simp only [triArea2, cross2, Prod.fst_sub, Prod.snd_sub]
  ring

theorem triArea2_self12 (a z : Pt K) : triArea2 a a z = 0 := by
  simp only [triArea2, cross2, Prod.fst_sub, Prod.snd_sub]
  ring

theorem triArea2_self13 (a y : Pt K) : triArea2 a y a = 0 := by
  simp only [triArea2, cross2, Prod.fst_sub, Prod.snd_sub]
  ring

theorem triArea2_self23 (x a : Pt K) : triArea2 x a a = 0 := by
  simp only [triArea2, cross2, Prod.fst_sub, Prod.snd_sub]
  ring

theorem triArea2_affine1 (u v y z : Pt K) (t : K) :
    triArea2 (u + smul2 t (v - u)) y z
      = (1 - t) * triArea2 u y z + t * triArea2 v y z := by
  simp only [triArea2, cross2, smul2, Prod.fst_sub, Prod.snd_sub,
    Prod.fst_add, Prod.snd_add]
  ring

theorem triArea2_affine2 (x u v z : Pt K) (t : K) :
    triArea2 x (u + smul2 t (v - u)) z
      = (1 - t) * triArea2 x u z + t * triArea2 x v z := by
  simp only [triArea2, cross2, smul2, Prod.fst_sub, Prod.snd_sub,
    Prod.fst_add, Prod.snd_add]
  ring

theorem triArea2_affine3 (x y u v : Pt K) (t : K) :
    triArea2 x y (u + smul2 t (v - u))
      = (1 - t) * triArea2 x y u + t * triArea2 x y v := by
  simp only [triArea2, cross2, smul2, Prod.fst_sub, Prod.snd_sub,
    Prod.fst_add, Prod.snd_add]
  ring

theorem cross2_onSeg (a b : Pt K) (t : K) :
    cross2 a (a + smul2 t (b - a)) + cross2 (a + smul2 t (b - a)) b
      = cross2 a b := by
  simp only [cross2, smul2, Prod.fst_sub, Prod.snd_sub, Prod.fst_add,
    Prod.snd_add]
  ring

theorem intersectPt_onSeg (n : Pt K) (c eps : K) (p1 p2 : Pt K) :
    ∃ t : K, 0 ≤ t ∧ t ≤ 1 ∧
      intersectPt n c eps p1 p2 = p1 + smul2 t (p2 - p1) := by
  simp only [intersectPt]
  split_ifs with hg
  · refine ⟨0, le_refl 0, zero_le_one, ?_⟩
    have : smul2 (0 : K) (p2 - p1) = 0 := by
      simp [smul2, Prod.ext_iff]
    rw [this, add_zero]
  · exact ⟨max 0 (min 1 ((c - dot2 n p1) / dot2 n (p2 - p1))),
      le_max_left _ _, max_le zero_le_one (min_le_left _ _), rfl⟩

theorem convexCCW_sublist {l s : List (Pt K)} (h : ConvexCCW l)
    (hs : List.Sublist s l) : ConvexCCW s :=
  fun p q r hpqr => h p q r (hpqr.trans hs)

theorem convexCCW_cons_iff {a : Pt K} {l : List (Pt K)} :
    ConvexCCW (a :: l) ↔
      (∀ y z, List.Sublist [y, z] l → 0 ≤ triArea2 a y z) ∧ ConvexCCW l := by
  constructor
  · intro h
    exact ⟨fun y z hyz => h a y z (List.Sublist.cons₂ a hyz),
      fun p q r hpqr => h p q r (List.Sublist.cons a hpqr)⟩
  · rintro ⟨h1, h2⟩ p q r hpqr
    rw [List.sublist_cons_iff] at hpqr
    rcases hpqr with h | ⟨r', heq, hr⟩
    · exact h2 p q r h
    · injection heq with h3 h4
      subst h3
      subst h4
      exact h1 q r hr

theorem pairs_insert_middle {A B : List (Pt K)} {u v p x : Pt K} {t : K}
    (ht0 : 0 ≤ t) (ht1 : t ≤ 1) (hp : p = u + smul2 t (v - u))
    (hx : ∀ y z, List.Sublist [y, z] (A ++ u :: v :: B) → 0 ≤ triArea2 x y z) :
    ∀ y z, List.Sublist [y, z] (A ++ u :: p :: v :: B) → 0 ≤ triArea2 x y z := by
  induction A with
  | nil =>
    simp only [List.nil_append] at hx ⊢
    intro y z hyz
    rw [List.sublist_cons_iff] at hyz
    rcases hyz with hyz | ⟨r', heq, hr⟩
    · -- [y, z] <+ p :: v :: B
      rw [List.sublist_cons_iff] at hyz
      rcases hyz with hyz | ⟨r', heq, hr⟩
      · exact hx y z (List.Sublist.cons u hyz)
      · injection heq with h1 h2
        subst h2
        rw [h1, hp, triArea2_affine2]
        have hu : 0 ≤ triArea2 x u z := hx u z (List.Sublist.cons₂ u hr)
        have hv : 0 ≤ triArea2 x v z := by
          rw [List.sublist_cons_iff] at hr
          rcases hr with hr | ⟨r'', heq2, hr2⟩
          · exact hx v z (List.Sublist.cons u (List.Sublist.cons₂ v hr))
          · injection heq2 with h3 h4
            rw [h3]
            exact le_of_eq (triArea2_self23 x v).symm
        exact add_nonneg (mul_nonneg (by linarith) hu) (mul_nonneg ht0 hv)
    · injection heq with h1 h2
      subst h2
      -- y = u, [z] <+ p :: v :: B
      rw [List.sublist_cons_iff] at hr
      rcases hr with hr | ⟨r'', heq2, hr2⟩
      · rw [h1]
        exact hx u z (List.Sublist.cons₂ u hr)
      · injection heq2 with h3 h4
        subst h4
        -- z = p
        rw [h1, h3, hp, triArea2_affine3]
        have hu : triArea2 x u u = 0 := triArea2_self23 x u
        have hv : 0 ≤ triArea2 x u v :=
          hx u v (List.Sublist.cons₂ u (List.Sublist.cons₂ v (List.nil_sublist B)))
        rw [hu, mul_zero, zero_add]
        exact mul_nonneg ht0 hv
  | cons a A ih =>
    intro y z hyz
    rw [List.cons_append, List.sublist_cons_iff] at hyz
    rcases hyz with hyz | ⟨r', heq, hr⟩
    · exact ih (fun y z h => hx y z (List.Sublist.cons a h)) y z hyz
    · injection heq with h1 h2
      subst h2
      rw [h1]
      -- y = a, [z] <+ A ++ u :: p :: v :: B
      rw [List.singleton_sublist, List.mem_append] at hr
      rcases hr with hz | hz
      · exact hx a z (List.Sublist.cons₂ a
          (List.singleton_sublist.mpr (List.mem_append_left _ hz)))
      · simp only [List.mem_cons] at hz
        rcases hz with rfl | rfl | hzv | hz
        · exact hx a z (List.Sublist.cons₂ a (List.singleton_sublist.mpr
            (List.mem_append_right _ (List.mem_cons_self _ _))))
        · rw [hp, triArea2_affine3]
          have hu : 0 ≤ triArea2 x a u := hx a u (List.Sublist.cons₂ a
            (List.singleton_sublist.mpr
              (List.mem_append_right _ (List.mem_cons_self _ _))))
          have hv : 0 ≤ triArea2 x a v := hx a v (List.Sublist.cons₂ a
            (List.singleton_sublist.mpr (List.mem_append_right _
              (List.mem_cons_of_mem _ (List.mem_cons_self _ _)))))
          exact add_nonneg (mul_nonneg (by linarith) hu) (mul_nonneg ht0 hv)
        · rw [hzv]
          exact hx a v (List.Sublist.cons₂ a (List.singleton_sublist.mpr
            (List.mem_append_right _
              (List.mem_cons_of_mem _ (List.mem_cons_self _ _)))))
        · exact hx a z (List.Sublist.cons₂ a (List.singleton_sublist.mpr
            (List.mem_append_right _
              (List.mem_cons_of_mem _ (List.mem_cons_of_mem _ hz)))))

theorem convexCCW_insert_middle {A B : List (Pt K)} {u v p : Pt K} {t : K}
    (ht0 : 0 ≤ t) (ht1 : t ≤ 1) (hp : p = u + smul2 t (v - u))
    (hc : ConvexCCW (A ++ u :: v :: B)) :
    ConvexCCW (A ++ u :: p :: v :: B) := by
  induction A with
  | nil =>
    simp only [List.nil_append] at hc ⊢
    rw [convexCCW_cons_iff] at hc ⊢
    obtain ⟨hu, hcv⟩ := hc
    constructor
    · intro y z hyz
      rw [List.sublist_cons_iff] at hyz
      rcases hyz with hyz | ⟨r', heq, hr⟩
      · exact hu y z hyz
      · injection heq with h1 h2
        subst h2
        rw [h1, hp, triArea2_affine2]
        have h0 : triArea2 u u z = 0 := triArea2_self12 u z
        have h1 : 0 ≤ triArea2 u v z := by
          rw [List.sublist_cons_iff] at hr
          rcases hr with hr | ⟨r'', heq2, hr2⟩
          · exact hu v z (List.Sublist.cons₂ v hr)
          · injection heq2 with h3 h4
            rw [h3]
            exact le_of_eq (triArea2_self23 u v).symm
        rw [h0, mul_zero, zero_add]
        exact mul_nonneg ht0 h1
    · rw [convexCCW_cons_iff]
      constructor
      · intro y z hyz
        rw [hp, triArea2_affine1]
        have hvyz : 0 ≤ triArea2 v y z := by
          rw [List.sublist_cons_iff] at hyz
          rcases hyz with h | ⟨r', heq, hr⟩
          · exact hcv v y z (List.Sublist.cons₂ v h)
          · injection heq with h1 h2
            subst h2
            rw [h1]
            exact le_of_eq (triArea2_self12 v z).symm
        have huyz : 0 ≤ triArea2 u y z := hu y z hyz
        exact add_nonneg (mul_nonneg (by linarith) huyz) (mul_nonneg ht0 hvyz)
      · exact hcv
  | cons a A ih =>
    rw [List.cons_append] at hc ⊢
    rw [convexCCW_cons_iff] at hc ⊢
    obtain ⟨ha, hcA⟩ := hc
    exact ⟨pairs_insert_middle ht0 ht1 hp ha, ih hcA⟩

theorem getLastD_mem {α : Type*} : ∀ (l : List α) (d : α), l ≠ [] → l.getLastD d ∈ l
  | [x], _, _ => List.mem_cons_self x []
  | x :: y :: l, d, _ => by
    rw [List.getLastD_cons]
    exact List.mem_cons_of_mem x (getLastD_mem (y :: l) x (by simp))

theorem convexCCW_insert_head {l : List (Pt K)} {u v p : Pt K} {t : K}
    (ht0 : 0 ≤ t) (ht1 : t ≤ 1) (hp : p = u + smul2 t (v - u))
    (hc : ConvexCCW l) (hhead : l.head? = some v) (hlast : l.getLast? = some u) :
    ConvexCCW (p :: l) := by
  rw [convexCCW_cons_iff]
  refine ⟨fun y z hyz => ?_, hc⟩
  rw [hp, triArea2_affine1]
  have hv : 0 ≤ triArea2 v y z := by
    cases l with
    | nil => simp at hhead
    | cons w tail =>
      injection hhead with hw
      rw [← hw]
      rw [List.sublist_cons_iff] at hyz
      rcases hyz with h | ⟨r', heq, hr⟩
      · exact hc w y z (List.Sublist.cons₂ w h)
      · injection heq with h1 h2
        subst h2
        rw [h1]
        exact le_of_eq (triArea2_self12 w z).symm
  have hu : 0 ≤ triArea2 u y z := by
    have hdecomp := List.dropLast_append_getLast? u hlast
    rw [← hdecomp] at hyz
    rw [List.sublist_append_iff] at hyz
    obtain ⟨s₁, s₂, hsplit, h₁, h₂⟩ := hyz
    rw [List.sublist_singleton] at h₂
    rcases h₂ with rfl | rfl
    · rw [List.append_nil] at hsplit
      subst hsplit
      have h3 : List.Sublist [y, z, u] l := by
        rw [← hdecomp]
        exact List.Sublist.append h₁ (List.Sublist.refl [u])
      have := hc y z u h3
      rw [triArea2_rot]
      exact this
    · -- secondary split: the pair ends at the last vertex u
      cases s₁ with
      | nil =>
        simp at hsplit
      | cons y0 s₁ =>
        cases s₁ with
        | nil =>
          injection hsplit with h1 h2
          injection h2 with h3 h4
          rw [h3]
          exact le_of_eq (triArea2_self13 u y).symm
        | cons y1 s₁ =>
          injection hsplit with h1 h2
          injection h2 with h3 h4
          simp at h4
  exact add_nonneg (mul_nonneg (by linarith) hu) (mul_nonneg ht0 hv)

theorem convexCCW_mid_walk (n : Pt K) (c eps : K) :
    ∀ (A : List (Pt K)) (prev : Pt K) (l : List (Pt K)),
      ConvexCCW (A ++ prev :: l) →
      ConvexCCW (A ++ prev :: fullWalk n c eps prev l)
  | _, _, [], hc => hc
  | A, prev, cur :: rest, hc => by
    obtain ⟨t, ht0, ht1, hp⟩ := intersectPt_onSeg n c eps prev cur
    have h1 : ConvexCCW
        (A ++ prev :: intersectPt n c eps prev cur :: cur :: rest) :=
      convexCCW_insert_middle ht0 ht1 hp hc
    have h2 := convexCCW_mid_walk n c eps
      (A ++ [prev, intersectPt n c eps prev cur]) cur rest
      (by rw [List.append_assoc]; exact h1)
    rw [List.append_assoc] at h2
    exact h2

theorem fullWalk_getLastD {n : Pt K} {c eps : K} :
    ∀ (prev : Pt K) (l : List (Pt K)),
      (fullWalk n c eps prev l).getLastD prev = l.getLastD prev
  | _, [] => rfl
  | prev, cur :: rest => by
    show (intersectPt n c eps prev cur :: cur ::
      fullWalk n c eps cur rest).getLastD prev = (cur :: rest).getLastD prev
    simp only [List.getLastD_cons]
    exact fullWalk_getLastD cur rest

theorem fullWalk_getLast? {n : Pt K} {c eps : K} :
    ∀ (prev : Pt K) (l : List (Pt K)), l ≠ [] →
      (fullWalk n c eps prev l).getLast? = l.getLast?
  | _, [], h => absurd rfl h
  | prev, [cur], _ => rfl
  | prev, cur :: cur2 :: rest, _ => by
    show (intersectPt n c eps prev cur :: cur ::
      fullWalk n c eps cur (cur2 :: rest)).getLast? =
      (cur :: cur2 :: rest).getLast?
    rw [List.getLast?_cons_cons]
    rw [show fullWalk n c eps cur (cur2 :: rest) =
      intersectPt n c eps cur cur2 :: cur2 :: fullWalk n c eps cur2 rest
      from rfl]
    rw [List.getLast?_cons_cons]
    rw [← show fullWalk n c eps cur (cur2 :: rest) =
      intersectPt n c eps cur cur2 :: cur2 :: fullWalk n c eps cur2 rest
      from rfl]
    rw [fullWalk_getLast? cur (cur2 :: rest) (by simp)]
    exact List.getLast?_cons_cons.symm

theorem convexCCW_fullWalk {n : Pt K} {c eps : K} {poly : List (Pt K)}
    {lst : Pt K} (hc : ConvexCCW poly) (hlast : poly.getLast? = some lst) :
    ConvexCCW (fullWalk n c eps lst poly) := by
  cases poly with
  | nil => simp at hlast
  | cons p0 rest =>
    have h1 : ConvexCCW (p0 :: fullWalk n c eps p0 rest) :=
      convexCCW_mid_walk n c eps [] p0 rest hc
    obtain ⟨t, ht0, ht1, hp⟩ := intersectPt_onSeg n c eps lst p0
    show ConvexCCW (intersectPt n c eps lst p0 :: p0 ::
      fullWalk n c eps p0 rest)
    refine convexCCW_insert_head ht0 ht1 hp h1 rfl ?_
    rw [List.getLast?_cons, ← List.getLastD_eq_getLast?,
      fullWalk_getLastD p0 rest]
    rw [List.getLast?_cons, ← List.getLastD_eq_getLast?] at hlast
    exact hlast

theorem pathSum_fullWalk {n : Pt K} {c eps : K} :
    ∀ (prev : Pt K) (l : List (Pt K)),
      pathSum prev (fullWalk n c eps prev l) = pathSum prev l
  | _, [] => rfl
  | prev, cur :: rest => by
    show cross2 prev (intersectPt n c eps prev cur) +
      (cross2 (intersectPt n c eps prev cur) cur +
        pathSum cur (fullWalk n c eps cur rest)) =
      cross2 prev cur + pathSum cur rest
    obtain ⟨t, ht0, ht1, hp⟩ := intersectPt_onSeg n c eps prev cur
    rw [pathSum_fullWalk cur rest, hp]
    have h := cross2_onSeg prev cur t
    linarith

theorem sArea2Go_eq_pathSum :
    ∀ (first prev : Pt K) (l : List (Pt K)),
      sArea2Go first prev l = pathSum prev l + cross2 (l.getLastD prev) first
  | first, prev, [] => by
    show cross2 prev first = 0 + cross2 prev first
    rw [zero_add]
  | first, prev, q :: l => by
    show cross2 prev q + sArea2Go first q l = _
    rw [sArea2Go_eq_pathSum first q l, List.getLastD_cons]
    show _ = cross2 prev q + pathSum q l + cross2 (l.getLastD q) first
    ring

theorem sArea2_eq_cyc (l : List (Pt K)) : sArea2 l = cyc l := by
  cases l with
  | nil => rfl
  | cons p l =>
    show sArea2Go p p l = pathSum ((p :: l).getLastD 0) (p :: l)
    rw [sArea2Go_eq_pathSum, List.getLastD_cons]
    show pathSum p l + cross2 (l.getLastD p) p =
      cross2 (l.getLastD p) p + pathSum p l
    ring

theorem sArea2_fullWalk {n : Pt K} {c eps : K} {poly : List (Pt K)}
    {lst : Pt K} (hlast : poly.getLast? = some lst) :
    sArea2 (fullWalk n c eps lst poly) = sArea2 poly := by
  cases poly with
  | nil => simp at hlast
  | cons p0 rest =>
    rw [List.getLast?_cons, ← List.getLastD_eq_getLast?] at hlast
    injection hlast with hlst
    show sArea2 (intersectPt n c eps lst p0 :: p0 ::
      fullWalk n c eps p0 rest) = sArea2 (p0 :: rest)
    show sArea2Go (intersectPt n c eps lst p0) (intersectPt n c eps lst p0)
      (p0 :: fullWalk n c eps p0 rest) = sArea2Go p0 p0 rest
    rw [sArea2Go_eq_pathSum, sArea2Go_eq_pathSum, List.getLastD_cons,
      fullWalk_getLastD p0 rest, hlst]
    show cross2 (intersectPt n c eps lst p0) p0 +
      pathSum p0 (fullWalk n c eps p0 rest) +
      cross2 lst (intersectPt n c eps lst p0) = _
    rw [pathSum_fullWalk p0 rest]
    obtain ⟨t, ht0, ht1, hp⟩ := intersectPt_onSeg n c eps lst p0
    rw [hp]
    have h := cross2_onSeg lst p0 t
    linarith

theorem pathSum_append :
    ∀ (p : Pt K) (X Y : List (Pt K)),
      pathSum p (X ++ Y) = pathSum p X + pathSum (X.getLastD p) Y
  | p, [], Y => by
    show pathSum p Y = 0 + pathSum p Y
    rw [zero_add]
  | p, x :: X, Y => by
    show cross2 p x + pathSum x (X ++ Y) = _
    rw [pathSum_append x X Y, List.getLastD_cons]
    show _ = cross2 p x + pathSum x X + pathSum (X.getLastD x) Y
    ring

theorem getLastD_append {α : Type*} :
    ∀ (X Y : List α) (d : α), (X ++ Y).getLastD d = Y.getLastD (X.getLastD d)
  | [], _, _ => rfl
  | x :: X, Y, d => by
    rw [List.cons_append, List.getLastD_cons, getLastD_append X Y x,
      List.getLastD_cons]

theorem cyc_delete (A B : List (Pt K)) (v : Pt K) :
    cyc (A ++ v :: B) = cyc (A ++ B) +
      triArea2 (A.getLastD (B.getLastD v)) v (B.headD (A.headD v)) := by
  cases A with
  | nil =>
    cases B with
    | nil =>
      show pathSum v [v] = 0 + triArea2 v v v
      rw [triArea2_self12, add_zero]
      show cross2 v v + 0 = 0
      simp only [cross2]
      ring
    | cons b0 B =>
      show cyc (v :: b0 :: B) = cyc (b0 :: B) + _
      simp only [cyc, List.getLastD_cons, getLastD_append, List.headD]
      show cross2 (B.getLastD b0) v + (cross2 v b0 + pathSum b0 B) =
        cross2 (B.getLastD b0) b0 + pathSum b0 B +
          triArea2 (B.getLastD b0) v b0
      simp only [triArea2, cross2, Prod.fst_sub, Prod.snd_sub]
      ring
  | cons a0 A =>
    cases B with
    | nil =>
      show cyc ((a0 :: A) ++ [v]) = cyc ((a0 :: A) ++ []) + _
      simp only [cyc, List.append_nil, getLastD_append, List.getLastD_cons,
        List.headD]
      show pathSum ([v].getLastD (A.getLastD a0)) ((a0 :: A) ++ [v]) =
        pathSum (A.getLastD a0) (a0 :: A) +
          triArea2 (A.getLastD a0) v a0
      rw [List.getLastD_cons]
      show pathSum v ((a0 :: A) ++ [v]) = _
      rw [pathSum_append v (a0 :: A) [v], List.getLastD_cons]
      show cross2 v a0 + pathSum a0 A + (cross2 (A.getLastD a0) v + 0) = _
      show _ = cross2 (A.getLastD a0) a0 + pathSum a0 A +
        triArea2 (A.getLastD a0) v a0
      simp only [triArea2, cross2, Prod.fst_sub, Prod.snd_sub]
      ring
    | cons b0 B =>
      show cyc ((a0 :: A) ++ v :: b0 :: B) =
        cyc ((a0 :: A) ++ b0 :: B) + _
      simp only [cyc, getLastD_append, List.getLastD_cons, List.headD]
      rw [pathSum_append _ (a0 :: A) (v :: b0 :: B),
        pathSum_append _ (a0 :: A) (b0 :: B)]
      simp only [List.getLastD_cons]
      show pathSum (B.getLastD b0) (a0 :: A) +
        (cross2 (A.getLastD a0) v + (cross2 v b0 + pathSum b0 B)) =
        pathSum (B.getLastD b0) (a0 :: A) +
          (cross2 (A.getLastD a0) b0 + pathSum b0 B) +
          triArea2 (A.getLastD a0) v b0
      simp only [triArea2, cross2, Prod.fst_sub, Prod.snd_sub]
      ring

theorem convexCCW_delete_le (A B : List (Pt K)) (v : Pt K)
    (hc : ConvexCCW (A ++ v :: B)) :
    sArea2 (A ++ B) ≤ sArea2 (A ++ v :: B) := by
  rw [sArea2_eq_cyc, sArea2_eq_cyc, cyc_delete]
  have h : 0 ≤ triArea2 (A.getLastD (B.getLastD v)) v
      (B.headD (A.headD v)) := by
    cases A with
    | nil =>
      cases B with
      | nil => exact le_of_eq (triArea2_self12 v v).symm
      | cons b0 B =>
        simp only [List.getLastD, List.getLastD_cons, List.headD]
        cases B with
        | nil => exact le_of_eq (triArea2_self13 b0 v).symm
        | cons b1 B =>
          rw [triArea2_rot]
          refine hc v b0 ((b1 :: B).getLastD b0)
            (List.Sublist.cons₂ v (List.Sublist.cons₂ b0 ?_))
          exact List.singleton_sublist.mpr (getLastD_mem _ _ (by simp))
    | cons a0 A =>
      cases B with
      | nil =>
        simp only [List.getLastD, List.getLastD_cons, List.headD]
        cases A with
        | nil => exact le_of_eq (triArea2_self13 a0 v).symm
        | cons a1 A =>
          rw [triArea2_rot, triArea2_rot]
          refine hc a0 ((a1 :: A).getLastD a0) v ?_
          show List.Sublist [a0, (a1 :: A).getLastD a0, v]
            (a0 :: ((a1 :: A) ++ [v]))
          refine List.Sublist.cons₂ a0 ?_
          exact List.Sublist.append
            (List.singleton_sublist.mpr (getLastD_mem _ _ (by simp)))
            (List.Sublist.refl [v])
      | cons b0 B =>
        simp only [List.getLastD_cons, List.headD]
        have hmem : A.getLastD a0 ∈ a0 :: A := by
          rw [← List.getLastD_cons a0 a0 A]
          exact getLastD_mem _ _ (by simp)
        refine hc (A.getLastD a0) v b0 ?_
        show List.Sublist ([A.getLastD a0] ++ [v, b0])
          ((a0 :: A) ++ v :: b0 :: B)
        exact List.Sublist.append (List.singleton_sublist.mpr hmem)
          (List.Sublist.cons₂ v (List.singleton_sublist.mpr
            (List.mem_cons_self b0 B)))
  linarith

theorem sublist_delete_step {α : Type*} {s l : List α} (h : List.Sublist s l) :
    s = l ∨ ∃ A v B, l = A ++ v :: B ∧ List.Sublist s (A ++ B) := by
  induction h with
  | slnil => exact Or.inl rfl
  | @cons l₁ l₂ a h ih =>
    exact Or.inr ⟨[], a, l₂, rfl, h⟩
  | @cons₂ l₁ l₂ a h ih =>
    rcases ih with rfl | ⟨A, v, B, rfl, hs⟩
    · exact Or.inl rfl
    · refine Or.inr ⟨a :: A, v, B, rfl, ?_⟩
      exact List.Sublist.cons₂ a hs

theorem sArea2_sublist_le_aux :
    ∀ (N : ℕ) (l s : List (Pt K)), l.length ≤ N →
      List.Sublist s l → ConvexCCW l → sArea2 s ≤ sArea2 l
  | 0, l, s, hN, hs, hc => by
    have hl : l = [] := List.length_eq_zero.mp (Nat.le_zero.mp hN)
    subst hl
    have hsn : s = [] := List.sublist_nil.mp hs
    subst hsn
    exact le_refl _
  | N + 1, l, s, hN, hs, hc => by
    rcases sublist_delete_step hs with rfl | ⟨A, v, B, rfl, hs2⟩
    · exact le_refl _
    · have h1 : ConvexCCW (A ++ B) := convexCCW_sublist hc
        (List.Sublist.append (List.Sublist.refl A) (List.sublist_cons_self v B))
      have hlen : (A ++ B).length ≤ N := by
        simp only [List.length_append, List.length_cons] at hN ⊢
        omega
      have h2 := sArea2_sublist_le_aux N (A ++ B) s hlen hs2 h1
      have h3 := convexCCW_delete_le A B v hc
      linarith

theorem sArea2_sublist_le {l s : List (Pt K)} (hs : List.Sublist s l)
    (hc : ConvexCCW l) : sArea2 s ≤ sArea2 l :=
  sArea2_sublist_le_aux l.length l s (le_refl _) hs hc

theorem clipWalk_sublist_fullWalk {n : Pt K} {c eps : K} :
    ∀ (prev : Pt K) (l : List (Pt K)),
      List.Sublist (clipWalk n c eps prev l) (fullWalk n c eps prev l)
  | _, [] => List.Sublist.refl _
  | prev, cur :: rest => by
    have h1 : List.Sublist (clipStep n c eps prev cur)
        [intersectPt n c eps prev cur, cur] := by
      unfold clipStep
      split_ifs
      · exact List.Sublist.cons _ (List.Sublist.refl _)
      · exact List.Sublist.refl _
      · exact List.Sublist.cons₂ _ (List.nil_sublist _)
      · exact List.nil_sublist _
    exact List.Sublist.append h1 (clipWalk_sublist_fullWalk cur rest)

theorem sArea2_clip_le (n : Pt K) (c eps : K) (poly : List (Pt K))
    (hc : ConvexCCW poly) :
    sArea2 (_clip_polygon_halfplane poly n c eps) ≤ sArea2 poly := by
  cases poly with
  | nil => exact le_refl _
  | cons p0 rest =>
    have hl : (p0 :: rest).getLast? = some (rest.getLastD p0) := by
      rw [List.getLast?_cons, ← List.getLastD_eq_getLast?]
    have hfc : ConvexCCW (fullWalk n c eps (rest.getLastD p0) (p0 :: rest)) :=
      convexCCW_fullWalk hc hl
    have h1 := sArea2_sublist_le
      (clipWalk_sublist_fullWalk (rest.getLastD p0) (p0 :: rest)) hfc
    rw [sArea2_fullWalk hl] at h1
    unfold _clip_polygon_halfplane
    rw [hl]
    exact h1

end BZ















